import Mathlib

/-!
Verification of the userspace controller of the atropos hybrid scheduler
(`tools/sched_ext/scx_atropos/src/main.rs`).

The Rust code is shallowly embedded: `f64` load/utilization arithmetic is
modelled over `ℚ` (exact arithmetic; the claims under scrutiny are order,
clamp and convexity properties that are stated at this level), `u64`/`u32`
counters are modelled as `Nat`, with wrap-around subtraction made explicit
(`sub64`) where the source performs `u64` subtraction on kernel-supplied
values that may move backwards.  `Vec` indexing that the source performs
only after a bounds check is modelled with `List.get`; an unchecked
indexing that can panic is modelled as an explicit error value
(`TopologyError.indexOutOfBounds`).  `BTreeMap` is modelled as a sorted
association list with insert-replacing-equal-key semantics (`btreeInsert`),
matching `std::collections::BTreeMap`.
-/

namespace Atropos

/-- `f64::clamp(lo, hi)` from Rust: returns `lo` if below, `hi` if above,
the value otherwise. -/
def clampQ (x lo hi : ℚ) : ℚ :=
  if x < lo then lo else if hi < x then hi else x

theorem clampQ_mem (x lo hi : ℚ) (h : lo ≤ hi) :
    lo ≤ clampQ x lo hi ∧ clampQ x lo hi ≤ hi := by
  unfold clampQ
  split
  · exact ⟨le_refl _, h⟩
  · split
    · exact ⟨h, le_refl _⟩
    · constructor
      · exact le_of_not_lt (by assumption)
      · exact le_of_not_lt (by assumption)

theorem clampQ_eq_self (x lo hi : ℚ) (h1 : lo ≤ x) (h2 : x ≤ hi) :
    clampQ x lo hi = x := by
  unfold clampQ
  rw [if_neg (not_lt.mpr h1), if_neg (not_lt.mpr h2)]

/-- Wrap-around `u64` subtraction, `a.wrapping_sub(b)` on values reduced
mod `2^64` (release-mode Rust semantics). -/
def sub64 (a b : Nat) : Nat :=
  (2 ^ 64 + a % 2 ^ 64 - b % 2 ^ 64) % 2 ^ 64

theorem sub64_eq_sub (a b : Nat) (hba : b ≤ a) (ha : a < 2 ^ 64) :
    sub64 a b = a - b := by
  have hb : b < 2 ^ 64 := lt_of_le_of_lt hba ha
  unfold sub64
  rw [Nat.mod_eq_of_lt ha, Nat.mod_eq_of_lt hb]
  have h1 : 2 ^ 64 + a - b = 2 ^ 64 + (a - b) := by omega
  rw [h1, Nat.add_mod_left]
  exact Nat.mod_eq_of_lt (by omega)

/-! ## CPU-stat reader (`MyCpuStat`, lines 168–197) -/

/-- A snapshot of the eight monotonically nondecreasing `/proc/stat`
tick counters for one CPU (source struct `MyCpuStat`). -/
structure MyCpuStat where
  user : Nat
  nice : Nat
  system : Nat
  idle : Nat
  iowait : Nat
  irq : Nat
  softirq : Nat
  steal : Nat
deriving DecidableEq

/-- `MyCpuStat::busy_and_total`: `busy = user+system+nice+irq+softirq+steal`,
`total = idle + busy + iowait`. -/
def busy_and_total (s : MyCpuStat) : Nat × Nat :=
  let busy := s.user + s.system + s.nice + s.irq + s.softirq + s.steal
  (busy, s.idle + busy + s.iowait)

/-- `MyCpuStat::calc_util`: utilization of `self` relative to snapshot
`prev`, `(busy delta / total delta)` clamped to `[0,1]` when the total
delta is positive, `1.0` otherwise.  The `u64` subtractions are wrapping. -/
def calc_util (curr prev : MyCpuStat) : ℚ :=
  let busy := sub64 (busy_and_total curr).1 (busy_and_total prev).1
  let total := sub64 (busy_and_total curr).2 (busy_and_total prev).2
  if 0 < total then clampQ ((busy : ℚ) / (total : ℚ)) 0 1 else 1

/-- Componentwise order on counter snapshots: every counter of `a` is at
most the corresponding counter of `b`. -/
def statLE (a b : MyCpuStat) : Prop :=
  a.user ≤ b.user ∧ a.nice ≤ b.nice ∧ a.system ≤ b.system ∧
  a.idle ≤ b.idle ∧ a.iowait ≤ b.iowait ∧ a.irq ≤ b.irq ∧
  a.softirq ≤ b.softirq ∧ a.steal ≤ b.steal

instance (a b : MyCpuStat) : Decidable (statLE a b) := by
  unfold statLE; infer_instance

theorem busy_le_total (s : MyCpuStat) :
    (busy_and_total s).1 ≤ (busy_and_total s).2 := by
  simp only [busy_and_total]
  omega

theorem calc_util_mem (curr prev : MyCpuStat) :
    0 ≤ calc_util curr prev ∧ calc_util curr prev ≤ 1 := by
  unfold calc_util
  simp only []
  split
  · exact clampQ_mem _ 0 1 (by norm_num)
  · norm_num

/-- C8: for snapshots of the same CPU with componentwise nondecreasing
counters (and the total count within the `u64` range), `calc_util` returns
the busy-delta over total-delta ratio clamped to `[0,1]` when the total
delta is positive, exactly `1` when the total delta is zero, and the
result is in `[0,1]` in all cases. -/
theorem calc_util_spec (curr prev : MyCpuStat) (hmono : statLE prev curr)
    (hrange : (busy_and_total curr).2 < 2 ^ 64) :
    (0 < (busy_and_total curr).2 - (busy_and_total prev).2 →
      calc_util curr prev =
        clampQ ((((busy_and_total curr).1 - (busy_and_total prev).1 : ℕ) : ℚ) /
                (((busy_and_total curr).2 - (busy_and_total prev).2 : ℕ) : ℚ)) 0 1) ∧
    ((busy_and_total curr).2 - (busy_and_total prev).2 = 0 →
      calc_util curr prev = 1) ∧
    0 ≤ calc_util curr prev ∧ calc_util curr prev ≤ 1 := by
  obtain ⟨h1, h2, h3, h4, h5, h6, h7, h8⟩ := hmono
  have hbusy_le : (busy_and_total prev).1 ≤ (busy_and_total curr).1 := by
    simp only [busy_and_total]; omega
  have htot_le : (busy_and_total prev).2 ≤ (busy_and_total curr).2 := by
    simp only [busy_and_total]; omega
  have hbrange : (busy_and_total curr).1 < 2 ^ 64 :=
    lt_of_le_of_lt (busy_le_total curr) hrange
  have hb : sub64 (busy_and_total curr).1 (busy_and_total prev).1 =
      (busy_and_total curr).1 - (busy_and_total prev).1 :=
    sub64_eq_sub _ _ hbusy_le hbrange
  have ht : sub64 (busy_and_total curr).2 (busy_and_total prev).2 =
      (busy_and_total curr).2 - (busy_and_total prev).2 :=
    sub64_eq_sub _ _ htot_le hrange
  refine ⟨?_, ?_, calc_util_mem curr prev⟩
  · intro hpos
    unfold calc_util
    simp only [hb, ht]
    rw [if_pos hpos]
  · intro hzero
    unfold calc_util
    simp only [hb, ht]
    rw [hzero]
    simp

/-- Witness for C8 at a concrete pair of snapshots. -/
theorem calc_util_spec_witness :
    statLE ⟨1, 0, 1, 8, 0, 0, 0, 0⟩ ⟨3, 0, 3, 12, 0, 0, 0, 0⟩ ∧
    (busy_and_total ⟨3, 0, 3, 12, 0, 0, 0, 0⟩).2 < 2 ^ 64 ∧
    (0 < (busy_and_total (⟨3, 0, 3, 12, 0, 0, 0, 0⟩ : MyCpuStat)).2 -
        (busy_and_total (⟨1, 0, 1, 8, 0, 0, 0, 0⟩ : MyCpuStat)).2 →
      calc_util ⟨3, 0, 3, 12, 0, 0, 0, 0⟩ ⟨1, 0, 1, 8, 0, 0, 0, 0⟩ =
        clampQ ((((busy_and_total (⟨3, 0, 3, 12, 0, 0, 0, 0⟩ : MyCpuStat)).1 -
                  (busy_and_total (⟨1, 0, 1, 8, 0, 0, 0, 0⟩ : MyCpuStat)).1 : ℕ) : ℚ) /
                (((busy_and_total (⟨3, 0, 3, 12, 0, 0, 0, 0⟩ : MyCpuStat)).2 -
                  (busy_and_total (⟨1, 0, 1, 8, 0, 0, 0, 0⟩ : MyCpuStat)).2 : ℕ) : ℚ)) 0 1) ∧
    0 ≤ calc_util ⟨3, 0, 3, 12, 0, 0, 0, 0⟩ ⟨1, 0, 1, 8, 0, 0, 0, 0⟩ ∧
    calc_util ⟨3, 0, 3, 12, 0, 0, 0, 0⟩ ⟨1, 0, 1, 8, 0, 0, 0, 0⟩ ≤ 1 := by
  have h := calc_util_spec ⟨3, 0, 3, 12, 0, 0, 0, 0⟩ ⟨1, 0, 1, 8, 0, 0, 0, 0⟩
    (by decide) (by decide)
  exact ⟨by decide, by decide, h.1, h.2.2⟩

/-! ## Topology builder (`Topology::from_cpumasks`, lines 237–318) -/

/-- `MAX_DOMS` from `atropos_sys` (compile-time constant shared with the
kernel component; not under `src/`, value from the BPF-side header the
spec describes). -/
def MAX_DOMS : Nat := 64

/-- Error outcomes of `Topology::from_cpumasks`.  The source returns
`anyhow` errors via `bail!`; each `bail!` site is one constructor.
`indexOutOfBounds` models a Rust index-out-of-bounds panic: `cpu ==
nr_cpus` passes the `cpu > nr_cpus` check and then indexes
`cpu_dom[cpu]` on a vector of length `nr_cpus`. -/
inductive TopologyError where
  | tooManyDoms
  | badMask
  | cpuOutOfRange
  | cpuDoubleAssigned
  | cpuUnassigned
  | indexOutOfBounds
deriving DecidableEq

/-- The fixed topology: CPU count, domain count, one CPU bit-set per
domain (modelled as a `Nat` bitmask, mirroring `BitVec<u64, Lsb0>`) and
the CPU → domain-or-none map. -/
structure Topology where
  nr_cpus : Nat
  nr_doms : Nat
  dom_cpus : List Nat
  cpu_dom : List (Option Nat)
deriving DecidableEq

/-- Value of a hex digit, as accepted by `hex::decode`. -/
def hexDigitVal (c : Char) : Option Nat :=
  if '0' ≤ c ∧ c ≤ '9' then some (c.toNat - '0'.toNat)
  else if 'a' ≤ c ∧ c ≤ 'f' then some (c.toNat - 'a'.toNat + 10)
  else if 'A' ≤ c ∧ c ≤ 'F' then some (c.toNat - 'A'.toNat + 10)
  else none

/-- `hex::decode` on an even-length digit string: big-endian byte list. -/
def hexBytes : List Char → Option (List Nat)
  | [] => some []
  | c1 :: c2 :: rest =>
    match hexDigitVal c1, hexDigitVal c2, hexBytes rest with
    | some h, some l, some bs => some ((h * 16 + l) :: bs)
    | _, _, _ => none
  | [_] => none

/-- Normalization the source applies before `hex::decode`: strip an exact
leading `0x`, drop `_` separators, left-pad odd lengths with `0`. -/
def normalizeHex (s : String) : List Char :=
  let cs := s.toList
  let cs := if cs.take 2 = ['0', 'x'] then cs.drop 2 else cs
  let cs := cs.filter (fun c => c ≠ '_')
  if cs.length % 2 = 1 then '0' :: cs else cs

/-- The CPU indices named by a decoded byte list:
`byte_vec.iter().rev().enumerate()`, and within each byte the
`trailing_zeros` loop visits set bits in ascending order;
bit `b` of reversed byte `i` is CPU `i*8 + b`. -/
def maskCpus (bytes : List Nat) : List Nat :=
  (bytes.reverse.enum).flatMap
    (fun p => ((List.range 8).filter (fun b => p.2.testBit b)).map (fun b => p.1 * 8 + b))

/-- One set bit of one mask (the body of the `while v != 0` loop):
reject `cpu > nr_cpus`, then read `cpu_dom[cpu]` (panic when out of
bounds), reject doubly assigned CPUs, otherwise record the assignment in
both maps. -/
def assignCpu (nr_cpus dom cpu : Nat) (st : List (Option Nat) × List Nat) :
    Except TopologyError (List (Option Nat) × List Nat) :=
  if nr_cpus < cpu then .error .cpuOutOfRange
  else if h : cpu < st.1.length then
    match st.1.get ⟨cpu, h⟩ with
    | some _ => .error .cpuDoubleAssigned
    | none => .ok (st.1.set cpu (some dom), st.2.set dom (st.2.getD dom 0 ||| 2 ^ cpu))
  else .error .indexOutOfBounds

/-- All set bits of one mask, in source order. -/
def assignList (nr_cpus dom : Nat) :
    List Nat → List (Option Nat) × List Nat →
    Except TopologyError (List (Option Nat) × List Nat)
  | [], st => .ok st
  | cpu :: rest, st =>
    match assignCpu nr_cpus dom cpu st with
    | .ok st' => assignList nr_cpus dom rest st'
    | .error e => .error e

/-- The `for (dom, cpumask) in cpumasks.iter().enumerate()` loop. -/
def buildDoms (nr_cpus : Nat) :
    Nat → List String → List (Option Nat) × List Nat →
    Except TopologyError (List (Option Nat) × List Nat)
  | _, [], st => .ok st
  | dom, mask :: rest, st =>
    match hexBytes (normalizeHex mask) with
    | none => .error .badMask
    | some bytes =>
      match assignList nr_cpus dom (maskCpus bytes) st with
      | .ok st' => buildDoms nr_cpus (dom + 1) rest st'
      | .error e => .error e

/-- `Topology::from_cpumasks`: reject more than `MAX_DOMS` masks, assign
every set bit of every mask, then reject any CPU left unassigned.
(`set_uninitialized(false)` is a no-op in the bitmask model: bits beyond
the set ones are already zero.) -/
def from_cpumasks (cpumasks : List String) (nr_cpus : Nat) :
    Except TopologyError Topology :=
  if MAX_DOMS < cpumasks.length then .error .tooManyDoms
  else
    match buildDoms nr_cpus 0 cpumasks
        (List.replicate nr_cpus none, List.replicate cpumasks.length 0) with
    | .error e => .error e
    | .ok st =>
      if st.1.all Option.isSome then
        .ok ⟨nr_cpus, cpumasks.length, st.2, st.1⟩
      else .error .cpuUnassigned

/-! ### List helpers shared by the invariant proofs -/

theorem getD_set_self {α : Type _} (l : List α) (i : Nat) (x d : α)
    (h : i < l.length) : (l.set i x).getD i d = x := by
  rw [List.getD_eq_getElem?_getD, List.getElem?_set_self (by simpa using h)]
  rfl

theorem getD_set_ne {α : Type _} (l : List α) (i j : Nat) (x d : α)
    (h : i ≠ j) : (l.set i x).getD j d = l.getD j d := by
  rw [List.getD_eq_getElem?_getD, List.getElem?_set_ne h,
    ← List.getD_eq_getElem?_getD]

theorem getD_set {α : Type _} (l : List α) (i j : Nat) (x d : α) :
    (l.set i x).getD j d =
      if j = i ∧ i < l.length then x else l.getD j d := by
  by_cases hij : j = i
  · subst hij
    by_cases hlen : j < l.length
    · rw [getD_set_self l j x d hlen, if_pos ⟨rfl, hlen⟩]
    · rw [if_neg (fun h => hlen h.2), List.set_eq_of_length_le (by omega)]
  · rw [getD_set_ne l i j x d (fun h => hij h.symm),
      if_neg (fun h => hij h.1)]

theorem getD_replicate {α : Type _} (n i : Nat) (a d : α) :
    (List.replicate n a).getD i d = if i < n then a else d := by
  by_cases h : i < n
  · rw [if_pos h, List.getD_eq_getElem?_getD, List.getElem?_replicate,
      if_pos h]
    rfl
  · rw [if_neg h, List.getD_eq_getElem?_getD, List.getElem?_replicate,
      if_neg h]
    rfl

theorem getD_none_of_ge {α : Type _} (l : List (Option α)) (i : Nat)
    (h : l.length ≤ i) : l.getD i none = none := by
  rw [List.getD_eq_getElem?_getD, List.getElem?_eq_none (by simpa using h)]
  rfl

theorem lt_length_of_getD_some {α : Type _} {l : List (Option α)} {i : Nat}
    {x : α} (h : l.getD i none = some x) : i < l.length := by
  by_contra hc
  rw [getD_none_of_ge l i (by omega)] at h
  exact Option.noConfusion h

/-! ### C5: the partition invariant of `from_cpumasks` -/

/-- The invariant maintained by the assignment loops: lengths are fixed,
and a CPU bit is set in a domain's mask exactly when `cpu_dom` records
that domain for that CPU. -/
def TopInv (nr_cpus ndoms : Nat) (st : List (Option Nat) × List Nat) : Prop :=
  st.1.length = nr_cpus ∧ st.2.length = ndoms ∧
  (∀ d c, (st.2.getD d 0).testBit c →
    st.1.getD c none = some d ∧ c < nr_cpus ∧ d < ndoms) ∧
  (∀ c d, st.1.getD c none = some d →
    (st.2.getD d 0).testBit c ∧ d < ndoms)

theorem assignCpu_inv {nr_cpus ndoms dom cpu : Nat}
    {st st' : List (Option Nat) × List Nat}
    (hdom : dom < ndoms) (hinv : TopInv nr_cpus ndoms st)
    (h : assignCpu nr_cpus dom cpu st = .ok st') :
    TopInv nr_cpus ndoms st' := by
  obtain ⟨hlen1, hlen2, hbit, hmap⟩ := hinv
  unfold assignCpu at h
  split at h
  · exact Except.noConfusion h
  · next hcpu =>
    split at h
    case isFalse => exact Except.noConfusion h
    case isTrue hlt =>
      split at h
      next heq => exact Except.noConfusion h
      next heq =>
      injection h with h
      subst h
      rw [List.get_eq_getElem] at heq
      have hcpu' : cpu < nr_cpus := by omega
      have hget : st.1.getD cpu none = none := by
        rw [List.getD_eq_getElem?_getD, List.getElem?_eq_getElem hlt, heq]
        rfl
      have hdomlen : dom < st.2.length := by omega
      refine ⟨by simpa using hlen1, by simpa using hlen2, ?_, ?_⟩
      · intro d c hc
        simp only at hc
        rw [getD_set st.2 dom d _ 0] at hc
        by_cases hdd : d = dom ∧ dom < st.2.length
        · rw [if_pos hdd] at hc
          rw [Nat.testBit_or] at hc
          rcases Bool.or_eq_true_iff.mp hc with hold | hnew
          · obtain ⟨hmap', hclt, _⟩ := hbit d c (by rw [hdd.1]; exact hold)
            have hne : c ≠ cpu := by
              intro hcc
              rw [hcc, hget] at hmap'
              exact Option.noConfusion hmap'
            refine ⟨?_, hclt, by omega⟩
            simp only
            rw [getD_set_ne st.1 cpu c _ none (fun hh => hne hh.symm)]
            rw [hdd.1] at hmap' ⊢
            exact hmap'
          · have hcc : c = cpu := by
              by_contra hne
              rw [Nat.testBit_two_pow_of_ne (fun hh => hne hh.symm)] at hnew
              exact Bool.noConfusion hnew
            subst hcc
            refine ⟨?_, hcpu', by omega⟩
            simp only
            rw [getD_set_self st.1 c _ none (by omega), hdd.1]
        · rw [if_neg hdd] at hc
          have hdne : d ≠ dom := by
            intro hh
            exact hdd ⟨hh, hdomlen⟩
          obtain ⟨hmap', hclt, hdlt⟩ := hbit d c hc
          have hne : c ≠ cpu := by
            intro hcc
            rw [hcc, hget] at hmap'
            exact Option.noConfusion hmap'
          refine ⟨?_, hclt, hdlt⟩
          simp only
          rw [getD_set_ne st.1 cpu c _ none (fun hh => hne hh.symm)]
          exact hmap'
      · intro c d hc
        simp only at hc
        rw [getD_set st.1 cpu c (some dom) none] at hc
        by_cases hcc : c = cpu ∧ cpu < st.1.length
        · rw [if_pos hcc] at hc
          injection hc with hc
          subst hc
          refine ⟨?_, hdom⟩
          simp only
          rw [hcc.1, getD_set_self st.2 dom _ 0 hdomlen, Nat.testBit_or,
            Nat.testBit_two_pow_self, Bool.or_true]
        · rw [if_neg hcc] at hc
          obtain ⟨hbit', hdlt⟩ := hmap c d hc
          refine ⟨?_, hdlt⟩
          simp only
          rw [getD_set st.2 dom d _ 0]
          by_cases hdd : d = dom ∧ dom < st.2.length
          · rw [if_pos hdd, Nat.testBit_or]
            rw [hdd.1] at hbit'
            rw [hbit']
            rfl
          · rw [if_neg hdd]
            exact hbit'

theorem assignList_inv {nr_cpus ndoms dom : Nat}
    (cpus : List Nat) (st st' : List (Option Nat) × List Nat)
    (hdom : dom < ndoms) (hinv : TopInv nr_cpus ndoms st)
    (h : assignList nr_cpus dom cpus st = .ok st') :
    TopInv nr_cpus ndoms st' := by
  induction cpus generalizing st with
  | nil =>
    unfold assignList at h
    injection h with h
    subst h
    exact hinv
  | cons cpu rest ih =>
    unfold assignList at h
    split at h
    next st1 heq =>
      exact ih st1 (assignCpu_inv hdom hinv heq) h
    next => exact Except.noConfusion h

theorem buildDoms_inv {nr_cpus ndoms : Nat}
    (masks : List String) (dom : Nat) (st st' : List (Option Nat) × List Nat)
    (hdom : dom + masks.length ≤ ndoms) (hinv : TopInv nr_cpus ndoms st)
    (h : buildDoms nr_cpus dom masks st = .ok st') :
    TopInv nr_cpus ndoms st' := by
  induction masks generalizing dom st with
  | nil =>
    unfold buildDoms at h
    injection h with h
    subst h
    exact hinv
  | cons mask rest ih =>
    unfold buildDoms at h
    split at h
    · exact Except.noConfusion h
    · split at h
      next st1 heq =>
        have hlt : dom < ndoms := by
          simp only [List.length_cons] at hdom
          omega
        refine ih (dom + 1) st1 ?_
          (assignList_inv _ st st1 hlt hinv heq) h
        simp only [List.length_cons] at hdom
        omega
      next => exact Except.noConfusion h

/-- C5: every topology that `from_cpumasks` builds successfully is a
partition of `{0, …, nr_cpus-1}` into the domains: every CPU below
`nr_cpus` is assigned a domain, the per-domain CPU sets are pairwise
disjoint, and their union is exactly the set of CPUs below `nr_cpus`. -/
theorem from_cpumasks_partition (masks : List String) (n : Nat) (t : Topology)
    (h : from_cpumasks masks n = .ok t) :
    t.nr_cpus = n ∧ t.nr_doms = t.dom_cpus.length ∧ t.cpu_dom.length = n ∧
    (∀ c, c < n → ∃ d, t.cpu_dom.getD c none = some d) ∧
    (∀ i j, i ≠ j → ∀ c,
      ¬((t.dom_cpus.getD i 0).testBit c ∧ (t.dom_cpus.getD j 0).testBit c)) ∧
    (∀ c, (∃ d, (t.dom_cpus.getD d 0).testBit c) ↔ c < n) := by
  unfold from_cpumasks at h
  split at h
  · exact Except.noConfusion h
  · split at h
    next => exact Except.noConfusion h
    next st heq =>
      split at h
      next hall =>
        injection h with h
        subst h
        have hinv0 : TopInv n masks.length
            (List.replicate n none, List.replicate masks.length 0) := by
          refine ⟨List.length_replicate _ _, List.length_replicate _ _, ?_, ?_⟩
          · intro d c hc
            simp only at hc
            rw [getD_replicate] at hc
            split at hc <;> simp at hc
          · intro c d hc
            simp only at hc
            rw [getD_replicate] at hc
            split at hc <;> exact Option.noConfusion hc
        have hinv := buildDoms_inv masks 0 _ st (by omega) hinv0 heq
        obtain ⟨hlen1, hlen2, hbit, hmap⟩ := hinv
        have hassigned : ∀ c, c < n → ∃ d, st.1.getD c none = some d := by
          intro c hc
          have hc' : c < st.1.length := by omega
          have hmem : st.1[c] ∈ st.1 := List.getElem_mem hc'
          have hsome := (List.all_eq_true).mp hall _ hmem
          match hval : st.1[c] with
          | some d =>
            refine ⟨d, ?_⟩
            rw [List.getD_eq_getElem?_getD, List.getElem?_eq_getElem hc', hval]
            rfl
          | none =>
            rw [hval] at hsome
            exact absurd hsome (by simp)
        refine ⟨rfl, hlen2.symm, hlen1, hassigned, ?_, ?_⟩
        · intro i j hij c ⟨hci, hcj⟩
          obtain ⟨hmi, _, _⟩ := hbit i c hci
          obtain ⟨hmj, _, _⟩ := hbit j c hcj
          rw [hmi] at hmj
          injection hmj with hmj
          exact hij hmj
        · intro c
          constructor
          · intro ⟨d, hd⟩
            exact (hbit d c hd).2.1
          · intro hc
            obtain ⟨d, hd⟩ := hassigned c hc
            exact ⟨d, (hmap c d hd).1⟩
      next => exact Except.noConfusion h

/-- Witness for C5 on `--cpumasks 0x3 --cpumasks 0xc` with 4 CPUs. -/
theorem from_cpumasks_partition_witness :
    from_cpumasks ["0x3", "0xc"] 4 =
      Except.ok ⟨4, 2, [3, 12], [some 0, some 0, some 1, some 1]⟩ ∧
    ((Topology.mk 4 2 [3, 12] [some 0, some 0, some 1, some 1]).nr_cpus = 4 ∧
     (Topology.mk 4 2 [3, 12] [some 0, some 0, some 1, some 1]).nr_doms =
       (Topology.mk 4 2 [3, 12] [some 0, some 0, some 1, some 1]).dom_cpus.length ∧
     (Topology.mk 4 2 [3, 12] [some 0, some 0, some 1, some 1]).cpu_dom.length = 4 ∧
     (∀ c, c < 4 → ∃ d,
       (Topology.mk 4 2 [3, 12] [some 0, some 0, some 1, some 1]).cpu_dom.getD c none = some d) ∧
     (∀ i j, i ≠ j → ∀ c,
       ¬(((Topology.mk 4 2 [3, 12] [some 0, some 0, some 1, some 1]).dom_cpus.getD i 0).testBit c ∧
         ((Topology.mk 4 2 [3, 12] [some 0, some 0, some 1, some 1]).dom_cpus.getD j 0).testBit c)) ∧
     (∀ c, (∃ d,
       ((Topology.mk 4 2 [3, 12] [some 0, some 0, some 1, some 1]).dom_cpus.getD d 0).testBit c) ↔
       c < 4)) :=
  ⟨rfl, from_cpumasks_partition ["0x3", "0xc"] 4 _ rfl⟩

/-- C3 (code bug): a set bit at index exactly `nr_cpus` passes the
`cpu > nr_cpus` range check and then indexes `cpu_dom[nr_cpus]` on a
vector of length `nr_cpus` — an out-of-bounds panic, not the
`CpuOutOfRange` error the spec promises for every bit index `≥ nr_cpus`.
Concretely: mask `0x100` (bit 8) with `nr_cpus = 8`. -/
theorem from_cpumasks_bit_eq_nr_cpus_panics :
    from_cpumasks ["0x100"] 8 = Except.error TopologyError.indexOutOfBounds ∧
    from_cpumasks ["0x100"] 8 ≠ Except.error TopologyError.cpuOutOfRange := by
  constructor
  · rfl
  · intro h
    have : Except.error (ε := TopologyError) (α := Topology)
        TopologyError.indexOutOfBounds = Except.error TopologyError.cpuOutOfRange := by
      rw [← h]
      rfl
    injection this with this
    exact TopologyError.noConfusion this

/-! ## Tuner (`Tuner::step`, lines 396–475) -/

/-- The immutable inputs of `Tuner::step`: the topology fields it reads
and the two thresholds (already divided by 100 in `Tuner::new`). -/
structure TunerCfg where
  nr_cpus : Nat
  nr_doms : Nat
  cpu_dom : List (Option Nat)
  direct_greedy_under : ℚ
  kick_greedy_under : ℚ

/-- The first loop of `Tuner::step`: for each CPU that has a domain and
appears in both snapshots, bump the domain's CPU count and add its
utilization (accumulators `dom_nr_cpus`, `dom_util_sum`). -/
def tunerAccum (cpu_dom : List (Option Nat)) (prev curr : Nat → Option MyCpuStat) :
    List Nat → List Nat × List ℚ → List Nat × List ℚ
  | [], acc => acc
  | cpu :: rest, acc =>
    tunerAccum cpu_dom prev curr rest
      (match cpu_dom.getD cpu none, curr cpu, prev cpu with
       | some dom, some c, some p =>
         (acc.1.set dom (acc.1.getD dom 0 + 1),
          acc.2.set dom (acc.2.getD dom 0 + calc_util c p))
       | _, _, _ => acc)

/-- The closure `update_dom_bits` of `Tuner::step`: write `val` into the
bit of every CPU in `0..nr_cpus` whose domain is `dom`.  The `[u64; 8]`
target is modelled as a bit-indexed boolean function. -/
def update_dom_bits (cpu_dom : List (Option Nat)) (dom : Nat) (val : Bool) :
    List Nat → (Nat → Bool) → (Nat → Bool)
  | [], target => target
  | cpu :: rest, target =>
    update_dom_bits cpu_dom dom val rest
      (match cpu_dom.getD cpu none with
       | some cdom =>
         if cdom = dom then (fun j => if j = cpu then val else target j) else target
       | none => target)

/-- The per-domain average utilization computed from the accumulators:
`match dom_nr_cpus[dom] { 0 => 0.0, nr => dom_util_sum[dom] / nr }`. -/
def utilAt (counts : List Nat) (sums : List ℚ) (dom : Nat) : ℚ :=
  match counts.getD dom 0 with
  | 0 => 0
  | nr => sums.getD dom 0 / (nr : ℚ)

/-- The second loop of `Tuner::step`: per domain, compute the average
utilization (`0` when no CPU contributed) and write both greedy masks. -/
def tunerDomLoop (cfg : TunerCfg) (counts : List Nat) (sums : List ℚ) :
    List Nat → List ℚ × (Nat → Bool) × (Nat → Bool) →
    List ℚ × (Nat → Bool) × (Nat → Bool)
  | [], st => st
  | dom :: rest, st =>
    let util : ℚ := utilAt counts sums dom
    tunerDomLoop cfg counts sums rest
      (st.1.set dom util,
       update_dom_bits cfg.cpu_dom dom
         (decide ((99999 : ℚ) / 100000 < cfg.direct_greedy_under) ||
          decide (util < cfg.direct_greedy_under))
         (List.range cfg.nr_cpus) st.2.1,
       update_dom_bits cfg.cpu_dom dom
         (decide ((99999 : ℚ) / 100000 < cfg.kick_greedy_under) ||
          decide (util < cfg.kick_greedy_under))
         (List.range cfg.nr_cpus) st.2.2)

/-- The mutable state `Tuner::step` updates: the two shared bitmasks and
the generation counter of `tune_input`, the tuner's `dom_utils`, and the
saved previous snapshot. -/
structure TunerState where
  direct_greedy_cpumask : Nat → Bool
  kick_greedy_cpumask : Nat → Bool
  gen : Nat
  dom_utils : List ℚ
  prev_cpu_stats : Nat → Option MyCpuStat

/-- `Tuner::step`: accumulate per-domain utilization from the two
snapshots, rewrite both greedy bitmasks per domain, bump `gen`, save the
current snapshot. -/
def tuner_step (cfg : TunerCfg) (curr : Nat → Option MyCpuStat)
    (st : TunerState) : TunerState :=
  let acc := tunerAccum cfg.cpu_dom st.prev_cpu_stats curr (List.range cfg.nr_cpus)
    (List.replicate cfg.nr_doms 0, List.replicate cfg.nr_doms 0)
  let out := tunerDomLoop cfg acc.1 acc.2 (List.range cfg.nr_doms)
    (st.dom_utils, st.direct_greedy_cpumask, st.kick_greedy_cpumask)
  { direct_greedy_cpumask := out.2.1
    kick_greedy_cpumask := out.2.2
    gen := st.gen + 1
    dom_utils := out.1
    prev_cpu_stats := curr }

/-- The CPUs that contribute to domain `d`'s utilization: assigned to `d`
and present in both snapshots. -/
def domActiveCpus (cfg : TunerCfg) (prev curr : Nat → Option MyCpuStat)
    (d : Nat) : List Nat :=
  (List.range cfg.nr_cpus).filter
    (fun c => decide (cfg.cpu_dom.getD c none = some d) &&
      (curr c).isSome && (prev c).isSome)

def statOf (o : Option MyCpuStat) : MyCpuStat :=
  o.getD ⟨0, 0, 0, 0, 0, 0, 0, 0⟩

/-- Domain utilization as the spec states it: sum of the contributing
CPUs' utilizations over their count, `0` when there are none. -/
def domUtil (cfg : TunerCfg) (prev curr : Nat → Option MyCpuStat)
    (d : Nat) : ℚ :=
  let l := domActiveCpus cfg prev curr d
  if l.length = 0 then 0
  else (l.map (fun c => calc_util (statOf (curr c)) (statOf (prev c)))).sum /
    (l.length : ℚ)

theorem tunerAccum_length (cpu_dom : List (Option Nat))
    (prev curr : Nat → Option MyCpuStat) (l : List Nat)
    (acc : List Nat × List ℚ) :
    (tunerAccum cpu_dom prev curr l acc).1.length = acc.1.length ∧
    (tunerAccum cpu_dom prev curr l acc).2.length = acc.2.length := by
  induction l generalizing acc with
  | nil => exact ⟨rfl, rfl⟩
  | cons cpu rest ih =>
    unfold tunerAccum
    rcases hcd : cpu_dom.getD cpu none with _ | dom <;>
      rcases hcu : curr cpu with _ | c <;>
      rcases hpr : prev cpu with _ | p <;>
      simp only [hcd, hcu, hpr]
    case some.some.some =>
      obtain ⟨h1, h2⟩ := ih
        ((acc.1.set dom (acc.1.getD dom 0 + 1),
          acc.2.set dom (acc.2.getD dom 0 + calc_util c p)))
      simp only [List.length_set] at h1 h2
      exact ⟨h1, h2⟩
    all_goals exact ih acc

theorem tunerAccum_getD (cpu_dom : List (Option Nat))
    (prev curr : Nat → Option MyCpuStat) (l : List Nat) (d : Nat)
    (acc : List Nat × List ℚ)
    (hd1 : d < acc.1.length) (hd2 : d < acc.2.length) :
    (tunerAccum cpu_dom prev curr l acc).1.getD d 0 =
      acc.1.getD d 0 +
        (l.filter (fun c => decide (cpu_dom.getD c none = some d) &&
          (curr c).isSome && (prev c).isSome)).length ∧
    (tunerAccum cpu_dom prev curr l acc).2.getD d 0 =
      acc.2.getD d 0 +
        ((l.filter (fun c => decide (cpu_dom.getD c none = some d) &&
            (curr c).isSome && (prev c).isSome)).map
          (fun c => calc_util (statOf (curr c)) (statOf (prev c)))).sum := by
  induction l generalizing acc with
  | nil => simp [tunerAccum]
  | cons cpu rest ih =>
    unfold tunerAccum
    rcases hcd : cpu_dom.getD cpu none with _ | dom
    · have hpred : (decide (cpu_dom.getD cpu none = some d) &&
          (curr cpu).isSome && (prev cpu).isSome) = false := by
        rw [hcd]; simp
      rw [List.filter_cons]
      simp only [hpred, Bool.false_eq_true, if_false]
      exact ih acc hd1 hd2
    · rcases hcu : curr cpu with _ | c
      · have hpred : (decide (cpu_dom.getD cpu none = some d) &&
            (curr cpu).isSome && (prev cpu).isSome) = false := by
          rw [hcu]; simp
        rw [List.filter_cons]
        simp only [hpred, Bool.false_eq_true, if_false]
        exact ih acc hd1 hd2
      · rcases hpr : prev cpu with _ | p
        · have hpred : (decide (cpu_dom.getD cpu none = some d) &&
              (curr cpu).isSome && (prev cpu).isSome) = false := by
            rw [hpr]; simp
          rw [List.filter_cons]
          simp only [hpred, Bool.false_eq_true, if_false]
          exact ih acc hd1 hd2
        · simp only [hcd, hcu, hpr]
          set acc' : List Nat × List ℚ :=
            (acc.1.set dom (acc.1.getD dom 0 + 1),
             acc.2.set dom (acc.2.getD dom 0 + calc_util c p)) with hacc'
          have hd1' : d < acc'.1.length := by
            simp only [hacc', List.length_set]; exact hd1
          have hd2' : d < acc'.2.length := by
            simp only [hacc', List.length_set]; exact hd2
          obtain ⟨ih1, ih2⟩ := ih acc' hd1' hd2'
          by_cases hdom : dom = d
          · subst hdom
            have hpred : (decide (cpu_dom.getD cpu none = some dom) &&
                (curr cpu).isSome && (prev cpu).isSome) = true := by
              rw [hcd, hcu, hpr]; simp
            simp only [List.filter_cons, hpred, if_true]
            constructor
            · rw [ih1]
              have : acc'.1.getD dom 0 = acc.1.getD dom 0 + 1 := by
                simp only [hacc']
                exact getD_set_self _ _ _ _ hd1
              rw [this]
              simp only [List.length_cons]
              omega
            · rw [ih2]
              have : acc'.2.getD dom 0 = acc.2.getD dom 0 + calc_util c p := by
                simp only [hacc']
                exact getD_set_self _ _ _ _ hd2
              rw [this]
              simp only [List.map_cons, List.sum_cons, statOf, hcu, hpr,
                Option.getD_some]
              ring
          · have hpred : (decide (cpu_dom.getD cpu none = some d) &&
                (curr cpu).isSome && (prev cpu).isSome) = false := by
              rw [hcd]
              simp only [Option.some.injEq, Bool.and_eq_false_imp]
              simp [hdom]
            simp only [List.filter_cons, hpred, Bool.false_eq_true, if_false]
            constructor
            · rw [ih1]
              have : acc'.1.getD d 0 = acc.1.getD d 0 := by
                simp only [hacc']
                exact getD_set_ne _ _ _ _ _ hdom
              rw [this]
            · rw [ih2]
              have : acc'.2.getD d 0 = acc.2.getD d 0 := by
                simp only [hacc']
                exact getD_set_ne _ _ _ _ _ hdom
              rw [this]

theorem update_dom_bits_frame (cpu_dom : List (Option Nat)) (dom : Nat)
    (val : Bool) (l : List Nat) (target : Nat → Bool) (j : Nat)
    (h : cpu_dom.getD j none ≠ some dom ∨ j ∉ l) :
    update_dom_bits cpu_dom dom val l target j = target j := by
  induction l generalizing target with
  | nil => rfl
  | cons cpu rest ih =>
    unfold update_dom_bits
    have hrest : cpu_dom.getD j none ≠ some dom ∨ j ∉ rest := by
      rcases h with h | h
      · exact Or.inl h
      · exact Or.inr (fun hm => h (List.mem_cons_of_mem _ hm))
    rw [ih _ hrest]
    rcases hcd : cpu_dom.getD cpu none with _ | cdom
    · rfl
    · by_cases hdd : cdom = dom
      · simp only [if_pos hdd]
        have hj : j ≠ cpu := by
          intro hj
          subst hj
          rcases h with h | h
          · rw [hcd, hdd] at h
            exact h rfl
          · exact h (List.mem_cons_self _ _)
        simp only [if_neg hj]
      · simp only [if_neg hdd]

theorem update_dom_bits_write (cpu_dom : List (Option Nat)) (dom : Nat)
    (val : Bool) (l : List Nat) (target : Nat → Bool) (j : Nat)
    (hmem : j ∈ l) (hj : cpu_dom.getD j none = some dom) :
    update_dom_bits cpu_dom dom val l target j = val := by
  induction l generalizing target with
  | nil => exact absurd hmem (List.not_mem_nil _)
  | cons cpu rest ih =>
    unfold update_dom_bits
    by_cases hrest : j ∈ rest
    · exact ih _ hrest
    · have hjc : j = cpu := (List.mem_cons.mp hmem).resolve_right hrest
      subst hjc
      rw [update_dom_bits_frame cpu_dom dom val rest _ j (Or.inr hrest), hj]
      simp

theorem tunerDomLoop_mask_frame (cfg : TunerCfg) (counts : List Nat)
    (sums : List ℚ) (l : List Nat)
    (st : List ℚ × (Nat → Bool) × (Nat → Bool)) (c : Nat)
    (h : ∀ dom, dom ∈ l → cfg.cpu_dom.getD c none ≠ some dom) :
    (tunerDomLoop cfg counts sums l st).2.1 c = st.2.1 c ∧
    (tunerDomLoop cfg counts sums l st).2.2 c = st.2.2 c := by
  induction l generalizing st with
  | nil => exact ⟨rfl, rfl⟩
  | cons dom rest ih =>
    unfold tunerDomLoop
    obtain ⟨ih1, ih2⟩ := ih _ (fun d hd => h d (List.mem_cons_of_mem _ hd))
    rw [ih1, ih2]
    constructor
    · exact update_dom_bits_frame _ _ _ _ _ _
        (Or.inl (h dom (List.mem_cons_self _ _)))
    · exact update_dom_bits_frame _ _ _ _ _ _
        (Or.inl (h dom (List.mem_cons_self _ _)))

theorem tunerDomLoop_mask_frame_hi (cfg : TunerCfg) (counts : List Nat)
    (sums : List ℚ) (l : List Nat)
    (st : List ℚ × (Nat → Bool) × (Nat → Bool)) (c : Nat)
    (h : cfg.nr_cpus ≤ c) :
    (tunerDomLoop cfg counts sums l st).2.1 c = st.2.1 c ∧
    (tunerDomLoop cfg counts sums l st).2.2 c = st.2.2 c := by
  induction l generalizing st with
  | nil => exact ⟨rfl, rfl⟩
  | cons dom rest ih =>
    unfold tunerDomLoop
    obtain ⟨ih1, ih2⟩ := ih _
    rw [ih1, ih2]
    have hnot : c ∉ List.range cfg.nr_cpus := by
      rw [List.mem_range]
      omega
    exact ⟨update_dom_bits_frame _ _ _ _ _ _ (Or.inr hnot),
      update_dom_bits_frame _ _ _ _ _ _ (Or.inr hnot)⟩

theorem tunerDomLoop_mask (cfg : TunerCfg) (counts : List Nat)
    (sums : List ℚ) (l : List Nat)
    (st : List ℚ × (Nat → Bool) × (Nat → Bool)) (c d : Nat)
    (hlen : cfg.cpu_dom.length = cfg.nr_cpus)
    (hc : cfg.cpu_dom.getD c none = some d) (hdl : d ∈ l) :
    (tunerDomLoop cfg counts sums l st).2.1 c =
      (decide ((99999 : ℚ) / 100000 < cfg.direct_greedy_under) ||
       decide (utilAt counts sums d < cfg.direct_greedy_under)) ∧
    (tunerDomLoop cfg counts sums l st).2.2 c =
      (decide ((99999 : ℚ) / 100000 < cfg.kick_greedy_under) ||
       decide (utilAt counts sums d < cfg.kick_greedy_under)) := by
  have hcr : c ∈ List.range cfg.nr_cpus := by
    rw [List.mem_range, ← hlen]
    exact lt_length_of_getD_some hc
  induction l generalizing st with
  | nil => exact absurd hdl (List.not_mem_nil _)
  | cons dom rest ih =>
    unfold tunerDomLoop
    by_cases hdrest : d ∈ rest
    · exact ih _ hdrest
    · have hdd : d = dom := (List.mem_cons.mp hdl).resolve_right hdrest
      subst hdd
      have hfun : ∀ d', d' ∈ rest → cfg.cpu_dom.getD c none ≠ some d' := by
        intro d' hd'
        rw [hc]
        intro hcon
        injection hcon with hcon
        exact hdrest (hcon ▸ hd')
      constructor
      · rw [(tunerDomLoop_mask_frame cfg counts sums rest _ c hfun).1]
        exact update_dom_bits_write _ _ _ _ _ _ hcr hc
      · rw [(tunerDomLoop_mask_frame cfg counts sums rest _ c hfun).2]
        exact update_dom_bits_write _ _ _ _ _ _ hcr hc

theorem tunerDomLoop_utils_length (cfg : TunerCfg) (counts : List Nat)
    (sums : List ℚ) (l : List Nat)
    (st : List ℚ × (Nat → Bool) × (Nat → Bool)) :
    (tunerDomLoop cfg counts sums l st).1.length = st.1.length := by
  induction l generalizing st with
  | nil => rfl
  | cons dom rest ih =>
    unfold tunerDomLoop
    rw [ih]
    exact List.length_set _ _ _

theorem tunerDomLoop_utils_frame (cfg : TunerCfg) (counts : List Nat)
    (sums : List ℚ) (l : List Nat)
    (st : List ℚ × (Nat → Bool) × (Nat → Bool)) (d : Nat)
    (h : d ∉ l) :
    (tunerDomLoop cfg counts sums l st).1.getD d 0 = st.1.getD d 0 := by
  induction l generalizing st with
  | nil => rfl
  | cons dom rest ih =>
    unfold tunerDomLoop
    rw [ih _ (fun hm => h (List.mem_cons_of_mem _ hm))]
    exact getD_set_ne _ _ _ _ _ (fun hdd => h (hdd ▸ List.mem_cons_self _ _))

theorem tunerDomLoop_utils (cfg : TunerCfg) (counts : List Nat)
    (sums : List ℚ) (l : List Nat)
    (st : List ℚ × (Nat → Bool) × (Nat → Bool)) (d : Nat)
    (hd : d < st.1.length) (hdl : d ∈ l) :
    (tunerDomLoop cfg counts sums l st).1.getD d 0 = utilAt counts sums d := by
  induction l generalizing st with
  | nil => exact absurd hdl (List.not_mem_nil _)
  | cons dom rest ih =>
    unfold tunerDomLoop
    by_cases hdrest : d ∈ rest
    · exact ih _ (by rw [List.length_set]; exact hd) hdrest
    · have hdd : d = dom := (List.mem_cons.mp hdl).resolve_right hdrest
      subst hdd
      rw [tunerDomLoop_utils_frame cfg counts sums rest _ d hdrest]
      exact getD_set_self _ _ _ _ hd

theorem domUtil_nonneg (cfg : TunerCfg) (prev curr : Nat → Option MyCpuStat)
    (d : Nat) : 0 ≤ domUtil cfg prev curr d := by
  unfold domUtil
  simp only []
  split
  · exact le_refl 0
  · apply div_nonneg
    · apply List.sum_nonneg
      intro x hx
      obtain ⟨c, _, hc⟩ := List.mem_map.mp hx
      rw [← hc]
      exact (calc_util_mem _ _).1
    · positivity

/-- `utilAt` over the accumulators equals the spec-level per-domain
utilization `domUtil` (sum over contributing CPUs divided by their
count, `0` if none). -/
theorem utilAt_accum_eq_domUtil (cfg : TunerCfg)
    (prev curr : Nat → Option MyCpuStat) (d : Nat) (hd : d < cfg.nr_doms) :
    utilAt
      (tunerAccum cfg.cpu_dom prev curr (List.range cfg.nr_cpus)
        (List.replicate cfg.nr_doms 0, List.replicate cfg.nr_doms 0)).1
      (tunerAccum cfg.cpu_dom prev curr (List.range cfg.nr_cpus)
        (List.replicate cfg.nr_doms 0, List.replicate cfg.nr_doms 0)).2
      d = domUtil cfg prev curr d := by
  obtain ⟨h1, h2⟩ := tunerAccum_getD cfg.cpu_dom prev curr
    (List.range cfg.nr_cpus) d
    (List.replicate cfg.nr_doms 0, List.replicate cfg.nr_doms 0)
    (by rw [List.length_replicate]; exact hd)
    (by rw [List.length_replicate]; exact hd)
  simp only [getD_replicate, if_pos hd, Nat.zero_add, zero_add] at h1 h2
  unfold utilAt domUtil
  rw [h1, h2]
  simp only [domActiveCpus]
  rcases hlen : (List.filter
      (fun c => decide (cfg.cpu_dom.getD c none = some d) &&
        (curr c).isSome && (prev c).isSome) (List.range cfg.nr_cpus)).length
    with _ | n
  · simp [hlen]
  · simp [hlen]

/-- C6: in `Tuner::step`, the stored per-domain utilization is the sum of
the contributing CPUs' utilizations over their count (`0` when none), and
for each output bitmask with threshold `T` the bit of every CPU assigned
to a domain ends up set iff `T > 0.99999` or the domain's utilization is
strictly below `T`; consequently `T = 0` clears all such bits and `T = 1`
sets them all. -/
theorem tuner_step_spec (cfg : TunerCfg) (curr : Nat → Option MyCpuStat)
    (st : TunerState) (c d : Nat)
    (hlen : cfg.cpu_dom.length = cfg.nr_cpus)
    (hulen : st.dom_utils.length = cfg.nr_doms)
    (hc : cfg.cpu_dom.getD c none = some d) (hd : d < cfg.nr_doms) :
    (tuner_step cfg curr st).dom_utils.getD d 0 =
      domUtil cfg st.prev_cpu_stats curr d ∧
    ((tuner_step cfg curr st).direct_greedy_cpumask c = true ↔
      ((99999 : ℚ) / 100000 < cfg.direct_greedy_under ∨
        domUtil cfg st.prev_cpu_stats curr d < cfg.direct_greedy_under)) ∧
    ((tuner_step cfg curr st).kick_greedy_cpumask c = true ↔
      ((99999 : ℚ) / 100000 < cfg.kick_greedy_under ∨
        domUtil cfg st.prev_cpu_stats curr d < cfg.kick_greedy_under)) ∧
    (cfg.direct_greedy_under = 0 →
      (tuner_step cfg curr st).direct_greedy_cpumask c = false) ∧
    (cfg.direct_greedy_under = 1 →
      (tuner_step cfg curr st).direct_greedy_cpumask c = true) ∧
    (cfg.kick_greedy_under = 0 →
      (tuner_step cfg curr st).kick_greedy_cpumask c = false) ∧
    (cfg.kick_greedy_under = 1 →
      (tuner_step cfg curr st).kick_greedy_cpumask c = true) := by
  have hdr : d ∈ List.range cfg.nr_doms := List.mem_range.mpr hd
  have hutil := utilAt_accum_eq_domUtil cfg st.prev_cpu_stats curr d hd
  have hmask := tunerDomLoop_mask cfg
    (tunerAccum cfg.cpu_dom st.prev_cpu_stats curr (List.range cfg.nr_cpus)
      (List.replicate cfg.nr_doms 0, List.replicate cfg.nr_doms 0)).1
    (tunerAccum cfg.cpu_dom st.prev_cpu_stats curr (List.range cfg.nr_cpus)
      (List.replicate cfg.nr_doms 0, List.replicate cfg.nr_doms 0)).2
    (List.range cfg.nr_doms)
    (st.dom_utils, st.direct_greedy_cpumask, st.kick_greedy_cpumask)
    c d hlen hc hdr
  have hutils := tunerDomLoop_utils cfg
    (tunerAccum cfg.cpu_dom st.prev_cpu_stats curr (List.range cfg.nr_cpus)
      (List.replicate cfg.nr_doms 0, List.replicate cfg.nr_doms 0)).1
    (tunerAccum cfg.cpu_dom st.prev_cpu_stats curr (List.range cfg.nr_cpus)
      (List.replicate cfg.nr_doms 0, List.replicate cfg.nr_doms 0)).2
    (List.range cfg.nr_doms)
    (st.dom_utils, st.direct_greedy_cpumask, st.kick_greedy_cpumask)
    d (by simpa using hulen ▸ hd) hdr
  have hstep1 : (tuner_step cfg curr st).dom_utils.getD d 0 =
      domUtil cfg st.prev_cpu_stats curr d := by
    unfold tuner_step
    simp only []
    rw [hutils, hutil]
  have hstep2 : (tuner_step cfg curr st).direct_greedy_cpumask c =
      (decide ((99999 : ℚ) / 100000 < cfg.direct_greedy_under) ||
       decide (domUtil cfg st.prev_cpu_stats curr d < cfg.direct_greedy_under)) := by
    unfold tuner_step
    simp only []
    rw [hmask.1, hutil]
  have hstep3 : (tuner_step cfg curr st).kick_greedy_cpumask c =
      (decide ((99999 : ℚ) / 100000 < cfg.kick_greedy_under) ||
       decide (domUtil cfg st.prev_cpu_stats curr d < cfg.kick_greedy_under)) := by
    unfold tuner_step
    simp only []
    rw [hmask.2, hutil]
  have hnn := domUtil_nonneg cfg st.prev_cpu_stats curr d
  refine ⟨hstep1, ?_, ?_, ?_, ?_, ?_, ?_⟩
  · rw [hstep2]
    simp
  · rw [hstep3]
    simp
  · intro h0
    rw [hstep2, h0]
    have e1 : ¬((99999 : ℚ) / 100000 < 0) := by norm_num
    have e2 : ¬(domUtil cfg st.prev_cpu_stats curr d < 0) := not_lt.mpr hnn
    simp [e1, e2]
  · intro h1
    rw [hstep2, h1]
    have e1 : (99999 : ℚ) / 100000 < 1 := by norm_num
    simp [e1]
  · intro h0
    rw [hstep3, h0]
    have e1 : ¬((99999 : ℚ) / 100000 < 0) := by norm_num
    have e2 : ¬(domUtil cfg st.prev_cpu_stats curr d < 0) := not_lt.mpr hnn
    simp [e1, e2]
  · intro h1
    rw [hstep3, h1]
    have e1 : (99999 : ℚ) / 100000 < 1 := by norm_num
    simp [e1]

/-- C10: a tuner step only rewrites bits of CPUs that are assigned to a
domain; the bit of any CPU with no domain, and any bit index at or above
`nr_cpus`, is left unchanged in both masks, whatever the thresholds and
snapshots are. -/
theorem tuner_step_frame (cfg : TunerCfg) (curr : Nat → Option MyCpuStat)
    (st : TunerState) (j : Nat)
    (h : cfg.cpu_dom.getD j none = none ∨ cfg.nr_cpus ≤ j) :
    (tuner_step cfg curr st).direct_greedy_cpumask j =
      st.direct_greedy_cpumask j ∧
    (tuner_step cfg curr st).kick_greedy_cpumask j =
      st.kick_greedy_cpumask j := by
  unfold tuner_step
  simp only []
  rcases h with h | h
  · exact tunerDomLoop_mask_frame cfg
      (tunerAccum cfg.cpu_dom st.prev_cpu_stats curr (List.range cfg.nr_cpus)
        (List.replicate cfg.nr_doms 0, List.replicate cfg.nr_doms 0)).1
      (tunerAccum cfg.cpu_dom st.prev_cpu_stats curr (List.range cfg.nr_cpus)
        (List.replicate cfg.nr_doms 0, List.replicate cfg.nr_doms 0)).2
      (List.range cfg.nr_doms)
      (st.dom_utils, st.direct_greedy_cpumask, st.kick_greedy_cpumask) j
      (fun dom _ => by rw [h]; exact fun hcon => Option.noConfusion hcon)
  · exact tunerDomLoop_mask_frame_hi cfg
      (tunerAccum cfg.cpu_dom st.prev_cpu_stats curr (List.range cfg.nr_cpus)
        (List.replicate cfg.nr_doms 0, List.replicate cfg.nr_doms 0)).1
      (tunerAccum cfg.cpu_dom st.prev_cpu_stats curr (List.range cfg.nr_cpus)
        (List.replicate cfg.nr_doms 0, List.replicate cfg.nr_doms 0)).2
      (List.range cfg.nr_doms)
      (st.dom_utils, st.direct_greedy_cpumask, st.kick_greedy_cpumask) j h

/-- A two-CPU, one-domain tuner configuration with
`direct_greedy_under = 50%` and `kick_greedy_under = 100%` (after the
`/100` scaling of `Tuner::new`), used by concrete witnesses. -/
def tunerCfgW : TunerCfg := ⟨2, 1, [some 0, some 0], 1 / 2, 1⟩

def prevW : Nat → Option MyCpuStat :=
  fun c => if c < 2 then some ⟨0, 0, 0, 0, 0, 0, 0, 0⟩ else none

def currW : Nat → Option MyCpuStat :=
  fun c => if c < 2 then some ⟨49, 0, 0, 51, 0, 0, 0, 0⟩ else none

def tunerStW : TunerState :=
  ⟨fun _ => false, fun j => decide (j = 5), 0, [0], prevW⟩

/-- Witness for C6: both CPUs of the single domain sit at utilization
`49/100`, below the `1/2` direct-greedy threshold. -/
theorem tuner_step_spec_witness :
    tunerCfgW.cpu_dom.length = tunerCfgW.nr_cpus ∧
    tunerStW.dom_utils.length = tunerCfgW.nr_doms ∧
    tunerCfgW.cpu_dom.getD 0 none = some 0 ∧
    0 < tunerCfgW.nr_doms ∧
    ((tuner_step tunerCfgW currW tunerStW).dom_utils.getD 0 0 =
      domUtil tunerCfgW tunerStW.prev_cpu_stats currW 0 ∧
    ((tuner_step tunerCfgW currW tunerStW).direct_greedy_cpumask 0 = true ↔
      ((99999 : ℚ) / 100000 < tunerCfgW.direct_greedy_under ∨
        domUtil tunerCfgW tunerStW.prev_cpu_stats currW 0 <
          tunerCfgW.direct_greedy_under)) ∧
    ((tuner_step tunerCfgW currW tunerStW).kick_greedy_cpumask 0 = true ↔
      ((99999 : ℚ) / 100000 < tunerCfgW.kick_greedy_under ∨
        domUtil tunerCfgW tunerStW.prev_cpu_stats currW 0 <
          tunerCfgW.kick_greedy_under)) ∧
    (tunerCfgW.direct_greedy_under = 0 →
      (tuner_step tunerCfgW currW tunerStW).direct_greedy_cpumask 0 = false) ∧
    (tunerCfgW.direct_greedy_under = 1 →
      (tuner_step tunerCfgW currW tunerStW).direct_greedy_cpumask 0 = true) ∧
    (tunerCfgW.kick_greedy_under = 0 →
      (tuner_step tunerCfgW currW tunerStW).kick_greedy_cpumask 0 = false) ∧
    (tunerCfgW.kick_greedy_under = 1 →
      (tuner_step tunerCfgW currW tunerStW).kick_greedy_cpumask 0 = true)) :=
  ⟨rfl, rfl, rfl, by decide,
    tuner_step_spec tunerCfgW currW tunerStW 0 0 rfl rfl rfl (by decide)⟩

/-- Witness for C10 at bit 5, which has no CPU (`nr_cpus = 2`): its
pre-existing values survive the step. -/
theorem tuner_step_frame_witness :
    (tunerCfgW.cpu_dom.getD 5 none = none ∨ tunerCfgW.nr_cpus ≤ 5) ∧
    ((tuner_step tunerCfgW currW tunerStW).direct_greedy_cpumask 5 =
      tunerStW.direct_greedy_cpumask 5 ∧
     (tuner_step tunerCfgW currW tunerStW).kick_greedy_cpumask 5 =
      tunerStW.kick_greedy_cpumask 5) :=
  ⟨Or.inl rfl, tuner_step_frame tunerCfgW currW tunerStW 5 (Or.inl rfl)⟩

/-! ## Load balancer (`LoadBalancer`, lines 477–836) -/

/-- Per-task rolling state (`TaskLoad`): the last observed cumulative
runnable time and the smoothed load. -/
structure TaskLoad where
  runnable_for : Nat
  load : ℚ
deriving DecidableEq

/-- Transient per-round view of one migratable task (`TaskInfo`); the
`Cell<bool>` is plain state here and is updated by `mark_migrated`. -/
structure TaskInfo where
  pid : Int
  dom_mask : Nat
  migrated : Bool
  is_kworker : Bool
deriving DecidableEq

/-- One `(pid, task_ctx)` entry read from the kernel task map; `pid` is
the map key, the rest are the `task_ctx` fields the balancer reads. -/
structure task_ctx where
  pid : Int
  runnable_at : Nat
  runnable_for : Nat
  weight : Nat
  dom_id : Nat
  dom_mask : Nat
  is_kworker : Bool
deriving DecidableEq

/-- `BTreeMap` insert on a sorted association list: strictly before the
first key that is not smaller; an equal key's entry is replaced. -/
def btreeInsert {κ : Type _} {α : Type _} [LinearOrder κ] :
    List (κ × α) → κ → α → List (κ × α)
  | [], k, v => [(k, v)]
  | (k', v') :: t, k, v =>
    if k < k' then (k, v) :: (k', v') :: t
    else if k = k' then (k, v) :: t
    else (k', v') :: btreeInsert t k v

theorem btreeInsert_mem_keys {κ : Type _} {α : Type _} [LinearOrder κ]
    (l : List (κ × α)) (k k' : κ) (v : α) :
    k' ∈ (btreeInsert l k v).map Prod.fst ↔
      k' = k ∨ k' ∈ l.map Prod.fst := by
  induction l with
  | nil => simp [btreeInsert]
  | cons p t ih =>
    obtain ⟨k1, v1⟩ := p
    unfold btreeInsert
    by_cases h1 : k < k1
    · simp only [if_pos h1, List.map_cons, List.mem_cons]
    · rw [if_neg h1]
      by_cases h2 : k = k1
      · subst h2
        rw [if_pos rfl]
        simp only [List.map_cons, List.mem_cons]
        tauto
      · simp only [if_neg h2, List.map_cons, List.mem_cons, ih]
        tauto

/-- The per-sample delta of one task (lines 584–599): difference of the
`runnable_for` counters (wrapping `u64` subtraction; the whole reading if
the task is new), plus the still-uncharged running time when
`0 < runnable_at < now`, clamped to the elapsed period. -/
def task_delta (prev : Option TaskLoad) (tc : task_ctx)
    (now_mono period : Nat) : Nat :=
  let delta :=
    match prev with
    | some p => sub64 tc.runnable_for p.runnable_for
    | none => tc.runnable_for
  let delta :=
    if 0 < tc.runnable_at ∧ tc.runnable_at < now_mono then
      (delta + (now_mono - tc.runnable_at)) % 2 ^ 64
    else delta
  min delta period

/-- The raw per-sample load (line 600):
`(weight * delta / period).clamp(0.0, weight)`. -/
def raw_load (tc : task_ctx) (delta period : Nat) : ℚ :=
  clampQ ((tc.weight : ℚ) * (delta : ℚ) / (period : ℚ)) 0 (tc.weight : ℚ)

/-- The decay step (lines 603–609): keep the raw load if the task is new,
otherwise `prev.load * α + raw * (1 - α)`. -/
def smoothed_load (prev : Option TaskLoad) (load_decay_factor raw : ℚ) : ℚ :=
  match prev with
  | some p => p.load * load_decay_factor + raw * (1 - load_decay_factor)
  | none => raw

/-- The load stored for one task this tick, as a function of the
previous tick's entry for its pid. -/
def task_this_load (prev : Option TaskLoad) (tc : task_ctx)
    (load_decay_factor : ℚ) (now_mono period : Nat) : ℚ :=
  smoothed_load prev load_decay_factor
    (raw_load tc (task_delta prev tc now_mono period) period)

/-- The accumulating state of `read_task_loads`. -/
structure RTLState where
  this_task_loads : List (Int × TaskLoad)
  load_sum : ℚ
  dom_loads : List ℚ
  tasks_by_load : List (List (ℚ × TaskInfo))
deriving DecidableEq

/-- The body of the `for key in task_data.keys()` loop: compute the
task's load, store it, account it to its domain, and — only when
`dom_mask ≠ 1 << dom_id` — index the task by load for its domain. -/
def rtl_step (prev_loads : List (Int × TaskLoad)) (load_decay_factor : ℚ)
    (now_mono period : Nat) (st : RTLState) (tc : task_ctx) : RTLState :=
  let prev := (prev_loads.lookup tc.pid)
  let this_load := task_this_load prev tc load_decay_factor now_mono period
  let st' : RTLState :=
    { this_task_loads :=
        btreeInsert st.this_task_loads tc.pid ⟨tc.runnable_for, this_load⟩
      load_sum := st.load_sum + this_load
      dom_loads := st.dom_loads.set tc.dom_id
        (st.dom_loads.getD tc.dom_id 0 + this_load)
      tasks_by_load := st.tasks_by_load }
  if tc.dom_mask = 2 ^ tc.dom_id then st'
  else
    { st' with
        tasks_by_load := st'.tasks_by_load.set tc.dom_id
          (btreeInsert (st'.tasks_by_load.getD tc.dom_id [])
            this_load
            ⟨tc.pid, tc.dom_mask, false, tc.is_kworker⟩) }

def rtl_loop (prev_loads : List (Int × TaskLoad)) (load_decay_factor : ℚ)
    (now_mono period : Nat) : List task_ctx → RTLState → RTLState
  | [], st => st
  | tc :: rest, st =>
    rtl_loop prev_loads load_decay_factor now_mono period rest
      (rtl_step prev_loads load_decay_factor now_mono period st tc)

/-- `LoadBalancer::read_task_loads`: fold the loop body over the task
entries starting from empty accumulators, then `load_avg = load_sum /
nr_doms`.  Returns the final state and `load_avg`. -/
def read_task_loads (prev_loads : List (Int × TaskLoad))
    (entries : List task_ctx) (load_decay_factor : ℚ)
    (now_mono period nr_doms : Nat) : RTLState × ℚ :=
  let st := rtl_loop prev_loads load_decay_factor now_mono period entries
    ⟨[], 0, List.replicate nr_doms 0, List.replicate nr_doms []⟩
  (st, st.load_sum / (nr_doms : ℚ))

/-- C9: the raw per-sample load is clamped into `[0, weight]`, the stored
smoothed load is the raw load for a new task and
`prev.load * α + raw * (1 - α)` otherwise, and for `α ∈ [0, 0.99]` the
smoothed load lies in the closed interval spanned by the prior load and
the raw load. -/
theorem task_load_clamp_hull (prev : Option TaskLoad) (tc : task_ctx)
    (a : ℚ) (now_mono period : Nat)
    (ha0 : 0 ≤ a) (ha1 : a ≤ 99 / 100) :
    (0 ≤ raw_load tc (task_delta prev tc now_mono period) period ∧
     raw_load tc (task_delta prev tc now_mono period) period ≤ (tc.weight : ℚ)) ∧
    (prev = none → task_this_load prev tc a now_mono period =
      raw_load tc (task_delta prev tc now_mono period) period) ∧
    (∀ p, prev = some p →
      task_this_load prev tc a now_mono period =
        p.load * a +
          raw_load tc (task_delta prev tc now_mono period) period * (1 - a) ∧
      min p.load (raw_load tc (task_delta prev tc now_mono period) period) ≤
        task_this_load prev tc a now_mono period ∧
      task_this_load prev tc a now_mono period ≤
        max p.load (raw_load tc (task_delta prev tc now_mono period) period)) := by
  refine ⟨?_, ?_, ?_⟩
  · unfold raw_load
    exact clampQ_mem _ 0 _ (by positivity)
  · intro hnone
    subst hnone
    rfl
  · intro p hsome
    subst hsome
    set raw := raw_load tc (task_delta (some p) tc now_mono period) period
      with hraw
    have heq : task_this_load (some p) tc a now_mono period =
        p.load * a + raw * (1 - a) := rfl
    refine ⟨heq, ?_, ?_⟩
    · rw [heq]
      have hm1 : min p.load raw ≤ p.load := min_le_left _ _
      have hm2 : min p.load raw ≤ raw := min_le_right _ _
      have h1a : 0 ≤ 1 - a := by linarith
      nlinarith [mul_le_mul_of_nonneg_right hm1 ha0,
        mul_le_mul_of_nonneg_right hm2 h1a]
    · rw [heq]
      have hm1 : p.load ≤ max p.load raw := le_max_left _ _
      have hm2 : raw ≤ max p.load raw := le_max_right _ _
      have h1a : 0 ≤ 1 - a := by linarith
      nlinarith [mul_le_mul_of_nonneg_right hm1 ha0,
        mul_le_mul_of_nonneg_right hm2 h1a]

/-- Concrete task used by the C9 witness: weight 4, counter delta 50
over a 100 ns period, prior load 2, `α = 1/2`. -/
def tcW : task_ctx := ⟨3, 0, 150, 4, 0, 1, false⟩

def tlW : TaskLoad := ⟨100, 2⟩

/-- Witness for C9. -/
theorem task_load_clamp_hull_witness :
    (0 : ℚ) ≤ 1 / 2 ∧ (1 : ℚ) / 2 ≤ 99 / 100 ∧
    ((0 ≤ raw_load tcW (task_delta (some tlW) tcW 1000 100) 100 ∧
      raw_load tcW (task_delta (some tlW) tcW 1000 100) 100 ≤
        (tcW.weight : ℚ)) ∧
     (some tlW = none →
      task_this_load (some tlW) tcW (1 / 2) 1000 100 =
        raw_load tcW (task_delta (some tlW) tcW 1000 100) 100) ∧
     (∀ p, some tlW = some p →
      task_this_load (some tlW) tcW (1 / 2) 1000 100 =
        p.load * (1 / 2) +
          raw_load tcW (task_delta (some tlW) tcW 1000 100) 100 * (1 - 1 / 2) ∧
      min p.load (raw_load tcW (task_delta (some tlW) tcW 1000 100) 100) ≤
        task_this_load (some tlW) tcW (1 / 2) 1000 100 ∧
      task_this_load (some tlW) tcW (1 / 2) 1000 100 ≤
        max p.load (raw_load tcW (task_delta (some tlW) tcW 1000 100) 100))) :=
  ⟨by norm_num, by norm_num,
    task_load_clamp_hull (some tlW) tcW (1 / 2) 1000 100
      (by norm_num) (by norm_num)⟩

theorem rtl_loop_tbl_length (prev_loads : List (Int × TaskLoad)) (a : ℚ)
    (now_mono period : Nat) (l : List task_ctx) (st : RTLState) :
    (rtl_loop prev_loads a now_mono period l st).tasks_by_load.length =
      st.tasks_by_load.length := by
  induction l generalizing st with
  | nil => rfl
  | cons tc rest ih =>
    unfold rtl_loop
    rw [ih]
    unfold rtl_step
    simp only []
    split
    · rfl
    · exact List.length_set _ _ _

theorem rtl_step_key_mono (prev_loads : List (Int × TaskLoad)) (a : ℚ)
    (now_mono period : Nat) (st : RTLState) (tc : task_ctx) (dm : Nat)
    (k : ℚ) (hk : k ∈ (st.tasks_by_load.getD dm []).map Prod.fst) :
    k ∈ ((rtl_step prev_loads a now_mono period st tc).tasks_by_load.getD
      dm []).map Prod.fst := by
  unfold rtl_step
  simp only []
  split
  · exact hk
  · by_cases hdm : dm = tc.dom_id ∧ tc.dom_id < st.tasks_by_load.length
    · rw [getD_set _ _ _ _ _, if_pos hdm, btreeInsert_mem_keys]
      right
      rw [← hdm.1]
      exact hk
    · rw [getD_set _ _ _ _ _, if_neg hdm]
      exact hk

theorem rtl_loop_key_mono (prev_loads : List (Int × TaskLoad)) (a : ℚ)
    (now_mono period : Nat) (l : List task_ctx) (st : RTLState) (dm : Nat)
    (k : ℚ) (hk : k ∈ (st.tasks_by_load.getD dm []).map Prod.fst) :
    k ∈ ((rtl_loop prev_loads a now_mono period l st).tasks_by_load.getD
      dm []).map Prod.fst := by
  induction l generalizing st with
  | nil => exact hk
  | cons tc rest ih =>
    unfold rtl_loop
    exact ih _ (rtl_step_key_mono prev_loads a now_mono period st tc dm k hk)

theorem rtl_loop_eligible_key (prev_loads : List (Int × TaskLoad)) (a : ℚ)
    (now_mono period : Nat) (l : List task_ctx) (st : RTLState)
    (tc : task_ctx) (hmem : tc ∈ l) (helig : tc.dom_mask ≠ 2 ^ tc.dom_id)
    (hdom : tc.dom_id < st.tasks_by_load.length) :
    task_this_load (prev_loads.lookup tc.pid) tc a now_mono period ∈
      ((rtl_loop prev_loads a now_mono period l st).tasks_by_load.getD
        tc.dom_id []).map Prod.fst := by
  induction l generalizing st with
  | nil => exact absurd hmem (List.not_mem_nil _)
  | cons hd rest ih =>
    unfold rtl_loop
    by_cases hrest : tc ∈ rest
    · refine ih (rtl_step prev_loads a now_mono period st hd) hrest ?_
      unfold rtl_step
      simp only []
      split
      · exact hdom
      · rw [List.length_set]
        exact hdom
    · have htc : tc = hd := (List.mem_cons.mp hmem).resolve_right hrest
      subst htc
      apply rtl_loop_key_mono
      unfold rtl_step
      simp only []
      rw [if_neg helig]
      rw [getD_set _ _ _ _ _, if_pos ⟨rfl, hdom⟩, btreeInsert_mem_keys]
      left
      rfl

/-- C4 (amended): after `read_task_loads`, the load value computed for
every eligible task is present as a key of its source domain's by-load
index.  (The index is a `BTreeMap` keyed by load, not a multimap: the
task stored under that key is the last eligible same-domain task with
that load value — see the overwrite counterexample.) -/
theorem read_task_loads_eligible_key_indexed
    (prev_loads : List (Int × TaskLoad)) (entries : List task_ctx)
    (a : ℚ) (now_mono period nr_doms : Nat) (tc : task_ctx)
    (hmem : tc ∈ entries) (helig : tc.dom_mask ≠ 2 ^ tc.dom_id)
    (hdom : tc.dom_id < nr_doms) :
    task_this_load (prev_loads.lookup tc.pid) tc a now_mono period ∈
      ((read_task_loads prev_loads entries a now_mono period
        nr_doms).1.tasks_by_load.getD tc.dom_id []).map Prod.fst := by
  unfold read_task_loads
  simp only []
  apply rtl_loop_eligible_key prev_loads a now_mono period entries _ tc hmem helig
  simp only [List.length_replicate]
  exact hdom

/-- C4, counterexample to the multimap reading: two eligible tasks of
domain 0, pids 1 and 2, with the same computed load 1; after
`read_task_loads` the domain-0 index holds a single entry and pid 1 is
gone — the `BTreeMap` insert replaced it. -/
theorem read_task_loads_equal_load_overwrite :
    ((read_task_loads [] [⟨1, 0, 8, 1, 0, 3, false⟩, ⟨2, 0, 8, 1, 0, 3, false⟩]
        (1 / 2) 100 8 2).1.tasks_by_load.getD 0 []) =
      [(1, ⟨2, 3, false, false⟩)] ∧
    ∀ p ∈ ((read_task_loads [] [⟨1, 0, 8, 1, 0, 3, false⟩, ⟨2, 0, 8, 1, 0, 3, false⟩]
        (1 / 2) 100 8 2).1.tasks_by_load.getD 0 []),
      p.2.pid ≠ 1 := by
  have h1 : ((read_task_loads []
      [⟨1, 0, 8, 1, 0, 3, false⟩, ⟨2, 0, 8, 1, 0, 3, false⟩]
        (1 / 2) 100 8 2).1.tasks_by_load.getD 0 []) =
      [(1, ⟨2, 3, false, false⟩)] := by
    norm_num [read_task_loads, rtl_loop, rtl_step, task_this_load,
      smoothed_load, raw_load, task_delta, btreeInsert, clampQ, List.lookup,
      List.replicate]
  refine ⟨h1, ?_⟩
  intro p hp
  rw [h1] at hp
  rw [List.mem_singleton.mp hp]
  decide

/-- Witness for C4's amended theorem at the first task of the
counterexample scenario. -/
theorem read_task_loads_eligible_key_indexed_witness :
    (⟨1, 0, 8, 1, 0, 3, false⟩ : task_ctx) ∈
      [(⟨1, 0, 8, 1, 0, 3, false⟩ : task_ctx), ⟨2, 0, 8, 1, 0, 3, false⟩] ∧
    (⟨1, 0, 8, 1, 0, 3, false⟩ : task_ctx).dom_mask ≠
      2 ^ (⟨1, 0, 8, 1, 0, 3, false⟩ : task_ctx).dom_id ∧
    (⟨1, 0, 8, 1, 0, 3, false⟩ : task_ctx).dom_id < 2 ∧
    task_this_load (([] : List (Int × TaskLoad)).lookup
        (⟨1, 0, 8, 1, 0, 3, false⟩ : task_ctx).pid)
      ⟨1, 0, 8, 1, 0, 3, false⟩ (1 / 2) 100 8 ∈
      ((read_task_loads [] [⟨1, 0, 8, 1, 0, 3, false⟩, ⟨2, 0, 8, 1, 0, 3, false⟩]
        (1 / 2) 100 8 2).1.tasks_by_load.getD
        (⟨1, 0, 8, 1, 0, 3, false⟩ : task_ctx).dom_id []).map Prod.fst :=
  ⟨List.mem_cons_self _ _, by decide, by decide,
    read_task_loads_eligible_key_indexed [] _ (1 / 2) 100 8 2 _
      (List.mem_cons_self _ _) (by decide) (by decide)⟩

/-! ## Migration planner (`find_first_candidate`, `pick_victim`,
`load_balance`, lines 658–836) -/

/-- `LoadBalancer::find_first_candidate`: the first task in iteration
order that has not been migrated this tick, may run in `pull_dom`, and is
not a kworker when `skip_kworkers` is set (`skip_while` + `next`). -/
def find_first_candidate :
    List (ℚ × TaskInfo) → Nat → Bool → Option (ℚ × TaskInfo)
  | [], _, _ => none
  | (load, task) :: rest, pull_dom, skip_kworkers =>
    if task.migrated = true ∨ task.dom_mask &&& 2 ^ pull_dom = 0 ∨
        (skip_kworkers = true ∧ task.is_kworker = true) then
      find_first_candidate rest pull_dom skip_kworkers
    else some (load, task)

/-- `LoadBalancer::pick_victim` for the pair `(push_dom, to_push) →
(pull_dom, to_pull)`.  `tasks_by_load` is the push domain's by-load index
(`BTreeMap` modelled as a list sorted ascending by load); the two range
scans become `filter` + `reverse`.  `0.50` is
`LOAD_IMBAL_XFER_TARGET` (the transfer-target constant). -/
def pick_victim (tasks_by_load : List (ℚ × TaskInfo)) (skip_kworkers : Bool)
    (to_push : ℚ) (pull_dom : Nat) (to_pull : ℚ) : Option (TaskInfo × ℚ) :=
  let to_xfer := min to_pull to_push * (1 / 2)
  let best : Option (ℚ × TaskInfo) :=
    match
      find_first_candidate
        ((tasks_by_load.filter (fun p => p.1 ≤ to_xfer)).reverse)
        pull_dom skip_kworkers,
      find_first_candidate
        (tasks_by_load.filter (fun p => to_xfer ≤ p.1))
        pull_dom skip_kworkers with
    | none, none => none
    | some (load, task), none => some (load, task)
    | none, some (load, task) => some (load, task)
    | some (load0, task0), some (load1, task1) =>
      if |to_push - load0| + |to_pull - load0| ≤
          |to_push - load1| + |to_pull - load1| then some (load0, task0)
      else some (load1, task1)
  match best with
  | none => none
  | some (load, task) =>
    if to_push + to_pull < |to_push - load| + |to_pull - load| then none
    else some (task, load)

/-- One selected migration: the chosen task, the pull domain whose
`lb_data` entry `pid → pull_dom` is written, and the task's load. -/
structure Mig where
  task : TaskInfo
  pull_dom : Nat
  load : ℚ
deriving DecidableEq

/-- The mutable state threaded through `load_balance`: the per-domain
by-load indexes (whose `migrated` cells get set) and `doms_to_pull`. -/
structure LBSt where
  tasks_by_load : List (List (ℚ × TaskInfo))
  doms_to_pull : List (ℚ × Nat)
deriving DecidableEq

/-- `task.migrated.set(true)`: flip the `migrated` cell of the entry the
victim was found under (its load key) in the push domain's index. -/
def mark_migrated (tbl : List (List (ℚ × TaskInfo))) (dom : Nat) (load : ℚ) :
    List (List (ℚ × TaskInfo)) :=
  tbl.set dom ((tbl.getD dom []).map
    (fun p => if p.1 = load then (p.1, { p.2 with migrated := true }) else p))

/-- The `for (to_pull, pull_dom) in pull_doms.iter_mut()` scan: try each
pull pair in the given (descending) order; on the first success subtract
the load from that pair's `to_pull` in place and break. -/
def scanPulls (tasks : List (ℚ × TaskInfo)) (skip_kworkers : Bool)
    (to_push : ℚ) : List (ℚ × Nat) → List (ℚ × Nat) × Option Mig
  | [] => ([], none)
  | (to_pull, pull_dom) :: rest =>
    match pick_victim tasks skip_kworkers to_push pull_dom to_pull with
    | some (task, load) =>
      ((to_pull - load, pull_dom) :: rest, some ⟨task, pull_dom, load⟩)
    | none =>
      let r := scanPulls tasks skip_kworkers to_push rest
      ((to_pull, pull_dom) :: r.1, r.2)

/-- Re-inserting the worked pull vector into the (emptied) `doms_to_pull`
`BTreeMap`. -/
def reinsertPulls (pull_doms : List (ℚ × Nat)) : List (ℚ × Nat) :=
  pull_doms.foldl (fun acc p => btreeInsert acc p.1 p.2) []

/-- The inner `loop` of `load_balance` for one push domain: each pass
swaps out `doms_to_pull`, scans the pulls in descending order, executes
at most one migration (marking the task, shrinking `to_push` and the
pair's `to_pull`, growing `pushed`), re-inserts the pulls, and stops when
a pass transferred nothing (`pushed == last_pushed`) or `pushed ≥
push_max`.  `fuel` bounds the number of passes; every theorem below
holds for every fuel value. -/
def innerLoop (skip_kworkers : Bool) (push_dom : Nat) (push_max : ℚ) :
    Nat → ℚ → ℚ → LBSt → LBSt × List Mig
  | 0, _, _, st => (st, [])
  | Nat.succ fuel, to_push, pushed, st =>
    let r := scanPulls (st.tasks_by_load.getD push_dom []) skip_kworkers
      to_push (st.doms_to_pull.reverse)
    match r.2 with
    | none => (⟨st.tasks_by_load, reinsertPulls r.1⟩, [])
    | some mig =>
      let st' : LBSt := ⟨mark_migrated st.tasks_by_load push_dom mig.load,
        reinsertPulls r.1⟩
      if pushed + mig.load = pushed ∨ push_max ≤ pushed + mig.load then
        (st', [mig])
      else
        let r' := innerLoop skip_kworkers push_dom push_max fuel
          (to_push - mig.load) (pushed + mig.load) st'
        (r'.1, mig :: r'.2)

/-- The outer `while let Some(...) = doms_to_push.pop_last()` loop, with
the pop order made explicit: the input list is already sorted descending
by imbalance.  For each popped push domain the outflow cap is
`push_max = dom_loads[push_dom] * 0.50` (`LOAD_IMBAL_PUSH_MAX`) and
`pushed` starts at `0`.  Returns per-push-domain migration lists. -/
def outerLoop (fuel : Nat) (dom_loads : List ℚ) (skip_kworkers : Bool) :
    List (ℚ × Nat) → LBSt → LBSt × List (Nat × List Mig)
  | [], st => (st, [])
  | (to_push, push_dom) :: rest, st =>
    let r := innerLoop skip_kworkers push_dom
      (dom_loads.getD push_dom 0 * (1 / 2)) fuel to_push 0 st
    let r' := outerLoop fuel dom_loads skip_kworkers rest r.1
    (r'.1, (push_dom, r.2) :: r'.2)

/-- `LoadBalancer::load_balance`: clear `lb_data` (the output starts
empty), then push from the most imbalanced domain to the least
(`doms_to_push` is kept sorted ascending as in the `BTreeMap`, so
popping from the back is reversing).  The returned association list
groups each push domain with the migrations selected out of it; the
entries written to `lb_data` are exactly `(m.task.pid → m.pull_dom)` for
the migrations in order. -/
def load_balance (fuel : Nat) (dom_loads : List ℚ) (skip_kworkers : Bool)
    (doms_to_push : List (ℚ × Nat)) (st : LBSt) :
    LBSt × List (Nat × List Mig) :=
  outerLoop fuel dom_loads skip_kworkers doms_to_push.reverse st

theorem find_first_candidate_spec (l : List (ℚ × TaskInfo)) (pull_dom : Nat)
    (skip_kworkers : Bool) (load : ℚ) (task : TaskInfo)
    (h : find_first_candidate l pull_dom skip_kworkers = some (load, task)) :
    task.migrated = false ∧ task.dom_mask &&& 2 ^ pull_dom ≠ 0 ∧
    (skip_kworkers = true → task.is_kworker = false) := by
  induction l with
  | nil => exact Option.noConfusion h
  | cons p rest ih =>
    obtain ⟨lo, t⟩ := p
    unfold find_first_candidate at h
    split at h
    · exact ih h
    · next hcond =>
      push_neg at hcond
      rw [Option.some.injEq, Prod.mk.injEq] at h
      obtain ⟨-, rfl⟩ := h
      obtain ⟨h1, h2, h3⟩ := hcond
      refine ⟨by simpa using h1, h2, ?_⟩
      intro hs
      by_contra hkw
      exact h3 hs (by simpa using hkw)

/-- Inversion of `pick_victim`: a selected victim came from one of the
two range scans, and passed the final imbalance check. -/
theorem pick_victim_inv (tasks_by_load : List (ℚ × TaskInfo))
    (skip_kworkers : Bool) (to_push : ℚ) (pull_dom : Nat) (to_pull : ℚ)
    (t : TaskInfo) (l : ℚ)
    (h : pick_victim tasks_by_load skip_kworkers to_push pull_dom to_pull =
      some (t, l)) :
    (find_first_candidate
        ((tasks_by_load.filter
          (fun p => p.1 ≤ min to_pull to_push * (1 / 2))).reverse)
        pull_dom skip_kworkers = some (l, t) ∨
     find_first_candidate
        (tasks_by_load.filter
          (fun p => min to_pull to_push * (1 / 2) ≤ p.1))
        pull_dom skip_kworkers = some (l, t)) ∧
    ¬(to_push + to_pull < |to_push - l| + |to_pull - l|) := by
  unfold pick_victim at h
  simp only [] at h
  rcases hL : find_first_candidate
      ((tasks_by_load.filter
        (fun p => p.1 ≤ min to_pull to_push * (1 / 2))).reverse)
      pull_dom skip_kworkers with _ | pL <;>
    rcases hR : find_first_candidate
      (tasks_by_load.filter
        (fun p => min to_pull to_push * (1 / 2) ≤ p.1))
      pull_dom skip_kworkers with _ | pR <;>
    rw [hL, hR] at h
  · exact Option.noConfusion h
  · obtain ⟨l1, t1⟩ := pR
    simp only [] at h
    split at h
    · exact Option.noConfusion h
    · next hguard =>
      rw [Option.some.injEq, Prod.mk.injEq] at h
      obtain ⟨rfl, rfl⟩ := h
      exact ⟨Or.inr rfl, hguard⟩
  · obtain ⟨l0, t0⟩ := pL
    simp only [] at h
    split at h
    · exact Option.noConfusion h
    · next hguard =>
      rw [Option.some.injEq, Prod.mk.injEq] at h
      obtain ⟨rfl, rfl⟩ := h
      exact ⟨Or.inl hL, hguard⟩
  · obtain ⟨l0, t0⟩ := pL
    obtain ⟨l1, t1⟩ := pR
    simp only [] at h
    split at h
    · exact Option.noConfusion h
    · next load' task' heq =>
      split at h
      · exact Option.noConfusion h
      · next hguard =>
        rw [Option.some.injEq, Prod.mk.injEq] at h
        obtain ⟨rfl, rfl⟩ := h
        split at heq
        · rw [Option.some.injEq, Prod.mk.injEq] at heq
          obtain ⟨rfl, rfl⟩ := heq
          exact ⟨Or.inl hL, hguard⟩
        · rw [Option.some.injEq, Prod.mk.injEq] at heq
          obtain ⟨rfl, rfl⟩ := heq
          exact ⟨Or.inr rfl, hguard⟩

/-- C1 (amended): a victim is selected exactly when the final check
`old_imbal < new_imbal` fails, i.e. when the candidate does not strictly
worsen the post-transfer imbalance; a selected migration therefore never
increases it.  The pair's `to_push + to_pull` falls by twice the victim's
load: strictly when the load is positive, and not at all when the load is
zero (the equality cases the original claim excludes). -/
theorem pick_victim_imbalance (tasks_by_load : List (ℚ × TaskInfo))
    (skip_kworkers : Bool) (to_push : ℚ) (pull_dom : Nat) (to_pull : ℚ)
    (t : TaskInfo) (l : ℚ)
    (h : pick_victim tasks_by_load skip_kworkers to_push pull_dom to_pull =
      some (t, l)) :
    |to_push - l| + |to_pull - l| ≤ to_push + to_pull ∧
    (to_push - l) + (to_pull - l) = (to_push + to_pull) - 2 * l ∧
    (0 < l → (to_push - l) + (to_pull - l) < to_push + to_pull) ∧
    (l = 0 → (to_push - l) + (to_pull - l) = to_push + to_pull) := by
  obtain ⟨-, hguard⟩ := pick_victim_inv tasks_by_load skip_kworkers to_push
    pull_dom to_pull t l h
  refine ⟨le_of_not_lt hguard, by ring, ?_, ?_⟩
  · intro hl
    linarith
  · intro hl
    rw [hl]
    ring

/-- Zero-load task used by the C1 counterexample. -/
def t0W : TaskInfo := ⟨5, 2, false, false⟩

/-- C1, counterexample to the claim as stated: with `to_push = to_pull =
1` and a single eligible task of load `0`, `pick_victim` selects the
task (the check only rejects strict worsening, and `new_imbal =
old_imbal = 2`), yet the migration leaves `to_push + to_pull`
unchanged — it does not strictly improve, and is not skipped. -/
theorem pick_victim_zero_load_selected :
    pick_victim [(0, t0W)] false 1 1 1 = some (t0W, 0) ∧
    ¬(((1 : ℚ) - 0) + (1 - 0) < 1 + 1) ∧
    ¬(|(1 : ℚ) - 0| + |1 - 0| < 1 + 1) := by
  refine ⟨?_, by norm_num, by norm_num⟩
  norm_num [pick_victim, find_first_candidate, t0W]

/-- Unit-load task used by the C1 witness. -/
def t1W : TaskInfo := ⟨6, 2, false, false⟩

/-- Witness for C1's amended theorem at a positive-load selection. -/
theorem pick_victim_imbalance_witness :
    pick_victim [(1, t1W)] false 1 1 1 = some (t1W, 1) ∧
    (|(1 : ℚ) - 1| + |1 - 1| ≤ 1 + 1 ∧
     ((1 : ℚ) - 1) + (1 - 1) = (1 + 1) - 2 * 1 ∧
     ((0 : ℚ) < 1 → ((1 : ℚ) - 1) + (1 - 1) < 1 + 1) ∧
     ((1 : ℚ) = 0 → ((1 : ℚ) - 1) + (1 - 1) = 1 + 1)) :=
  ⟨by norm_num [pick_victim, find_first_candidate, t1W],
   pick_victim_imbalance [(1, t1W)] false 1 1 1 t1W 1
     (by norm_num [pick_victim, find_first_candidate, t1W])⟩

theorem scanPulls_some (tasks : List (ℚ × TaskInfo)) (skip_kworkers : Bool)
    (to_push : ℚ) (pulls : List (ℚ × Nat)) (mig : Mig)
    (h : (scanPulls tasks skip_kworkers to_push pulls).2 = some mig) :
    ∃ to_pull, pick_victim tasks skip_kworkers to_push mig.pull_dom to_pull =
      some (mig.task, mig.load) := by
  induction pulls with
  | nil => exact Option.noConfusion h
  | cons p rest ih =>
    obtain ⟨to_pull, pull_dom⟩ := p
    unfold scanPulls at h
    rcases hpv : pick_victim tasks skip_kworkers to_push pull_dom to_pull
      with _ | tl
    · rw [hpv] at h
      simp only [] at h
      exact ih h
    · obtain ⟨task, load⟩ := tl
      rw [hpv] at h
      simp only [Option.some.injEq] at h
      subst h
      exact ⟨to_pull, hpv⟩

/-- Every migration the inner loop selects passes the candidate filter:
the task may run in the pull domain and, under skip-kworkers, is not a
kworker. -/
theorem innerLoop_migs_elig (skip_kworkers : Bool) (push_dom : Nat)
    (push_max : ℚ) (fuel : Nat) (to_push pushed : ℚ) (st : LBSt) :
    ∀ mig ∈ (innerLoop skip_kworkers push_dom push_max fuel to_push pushed
      st).2,
      mig.task.dom_mask &&& 2 ^ mig.pull_dom ≠ 0 ∧
      (skip_kworkers = true → mig.task.is_kworker = false) := by
  induction fuel generalizing to_push pushed st with
  | zero => intro mig hmig; exact absurd hmig (List.not_mem_nil _)
  | succ fuel ih =>
    intro mig hmig
    unfold innerLoop at hmig
    simp only [] at hmig
    rcases hscan : (scanPulls (st.tasks_by_load.getD push_dom [])
        skip_kworkers to_push (st.doms_to_pull.reverse)).2 with _ | mig'
    · rw [hscan] at hmig
      simp only [] at hmig
      exact absurd hmig (List.not_mem_nil _)
    · rw [hscan] at hmig
      simp only [] at hmig
      have hone : mig'.task.dom_mask &&& 2 ^ mig'.pull_dom ≠ 0 ∧
          (skip_kworkers = true → mig'.task.is_kworker = false) := by
        obtain ⟨to_pull, hpv⟩ := scanPulls_some _ _ _ _ _ hscan
        obtain ⟨hside, -⟩ := pick_victim_inv _ _ _ _ _ _ _ hpv
        rcases hside with hffc | hffc
        · obtain ⟨-, h2, h3⟩ := find_first_candidate_spec _ _ _ _ _ hffc
          exact ⟨h2, h3⟩
        · obtain ⟨-, h2, h3⟩ := find_first_candidate_spec _ _ _ _ _ hffc
          exact ⟨h2, h3⟩
      split at hmig
      · rcases List.mem_singleton.mp hmig with rfl
        exact hone
      · rcases List.mem_cons.mp hmig with rfl | hmem
        · exact hone
        · exact ih _ _ _ mig hmem

/-- C7: every migration `load_balance` selects (hence every entry
`pid → pull_dom` it writes to `lb_data`) is for a task whose `dom_mask`
has the pull domain's bit set and, when skip-kworkers is enabled, for a
task that is not a kworker. -/
theorem load_balance_eligibility (fuel : Nat) (dom_loads : List ℚ)
    (skip_kworkers : Bool) (doms_to_push : List (ℚ × Nat)) (st : LBSt) :
    ∀ pd ms, (pd, ms) ∈ (load_balance fuel dom_loads skip_kworkers
      doms_to_push st).2 →
    ∀ m ∈ ms, m.task.dom_mask &&& 2 ^ m.pull_dom ≠ 0 ∧
      (skip_kworkers = true → m.task.is_kworker = false) := by
  unfold load_balance
  generalize doms_to_push.reverse = pushes
  induction pushes generalizing st with
  | nil =>
    intro pd ms hmem
    exact absurd hmem (List.not_mem_nil _)
  | cons p rest ih =>
    obtain ⟨to_push, push_dom⟩ := p
    intro pd ms hmem m hm
    unfold outerLoop at hmem
    simp only [List.mem_cons] at hmem
    rcases hmem with heq | hmem
    · injection heq with h1 h2
      subst h1
      subst h2
      exact innerLoop_migs_elig _ _ _ _ _ _ _ m hm
    · exact ih _ pd ms hmem m hm

theorem innerLoop_eq_none (skip_kworkers : Bool) (push_dom : Nat)
    (push_max : ℚ) (fuel : Nat) (to_push pushed : ℚ) (st : LBSt)
    (hs : (scanPulls (st.tasks_by_load.getD push_dom []) skip_kworkers
      to_push (st.doms_to_pull.reverse)).2 = none) :
    innerLoop skip_kworkers push_dom push_max (fuel + 1) to_push pushed st =
      (⟨st.tasks_by_load, reinsertPulls
        (scanPulls (st.tasks_by_load.getD push_dom []) skip_kworkers
          to_push (st.doms_to_pull.reverse)).1⟩, []) := by
  simp only [innerLoop]
  rw [hs]

theorem innerLoop_eq_break (skip_kworkers : Bool) (push_dom : Nat)
    (push_max : ℚ) (fuel : Nat) (to_push pushed : ℚ) (st : LBSt) (mig : Mig)
    (hs : (scanPulls (st.tasks_by_load.getD push_dom []) skip_kworkers
      to_push (st.doms_to_pull.reverse)).2 = some mig)
    (hb : pushed + mig.load = pushed ∨ push_max ≤ pushed + mig.load) :
    innerLoop skip_kworkers push_dom push_max (fuel + 1) to_push pushed st =
      (⟨mark_migrated st.tasks_by_load push_dom mig.load, reinsertPulls
        (scanPulls (st.tasks_by_load.getD push_dom []) skip_kworkers
          to_push (st.doms_to_pull.reverse)).1⟩, [mig]) := by
  simp only [innerLoop]
  rw [hs]
  simp only []
  rw [if_pos hb]

theorem innerLoop_eq_cont (skip_kworkers : Bool) (push_dom : Nat)
    (push_max : ℚ) (fuel : Nat) (to_push pushed : ℚ) (st : LBSt) (mig : Mig)
    (hs : (scanPulls (st.tasks_by_load.getD push_dom []) skip_kworkers
      to_push (st.doms_to_pull.reverse)).2 = some mig)
    (hb : ¬(pushed + mig.load = pushed ∨ push_max ≤ pushed + mig.load)) :
    innerLoop skip_kworkers push_dom push_max (fuel + 1) to_push pushed st =
      ((innerLoop skip_kworkers push_dom push_max fuel (to_push - mig.load)
          (pushed + mig.load)
          ⟨mark_migrated st.tasks_by_load push_dom mig.load, reinsertPulls
            (scanPulls (st.tasks_by_load.getD push_dom []) skip_kworkers
              to_push (st.doms_to_pull.reverse)).1⟩).1,
       mig :: (innerLoop skip_kworkers push_dom push_max fuel
          (to_push - mig.load) (pushed + mig.load)
          ⟨mark_migrated st.tasks_by_load push_dom mig.load, reinsertPulls
            (scanPulls (st.tasks_by_load.getD push_dom []) skip_kworkers
              to_push (st.doms_to_pull.reverse)).1⟩).2) := by
  simp only [innerLoop]
  rw [hs]
  simp only []
  rw [if_neg hb]

/-- The inner loop's break condition is checked only after a pass: before
every migration except possibly the first, the total already pushed is
strictly below `push_max`. -/
theorem innerLoop_prefix (skip_kworkers : Bool) (push_dom : Nat)
    (push_max : ℚ) :
    ∀ (fuel : Nat) (to_push pushed : ℚ) (st : LBSt) (i : Nat),
      0 < i →
      i < (innerLoop skip_kworkers push_dom push_max fuel to_push pushed
        st).2.length →
      pushed + (((innerLoop skip_kworkers push_dom push_max fuel to_push
        pushed st).2.take i).map Mig.load).sum < push_max := by
  intro fuel
  induction fuel with
  | zero =>
    intro to_push pushed st i h0 hlen
    simp only [innerLoop, List.length_nil] at hlen
    omega
  | succ fuel ih =>
    intro to_push pushed st i h0 hlen
    rcases hscan : (scanPulls (st.tasks_by_load.getD push_dom [])
        skip_kworkers to_push (st.doms_to_pull.reverse)).2 with _ | mig
    · rw [innerLoop_eq_none skip_kworkers push_dom push_max fuel to_push
        pushed st hscan] at hlen
      simp only [List.length_nil] at hlen
      omega
    · by_cases hbreak : pushed + mig.load = pushed ∨
          push_max ≤ pushed + mig.load
      · rw [innerLoop_eq_break skip_kworkers push_dom push_max fuel to_push
          pushed st mig hscan hbreak] at hlen
        simp only [List.length_singleton] at hlen
        omega
      · rw [innerLoop_eq_cont skip_kworkers push_dom push_max fuel to_push
          pushed st mig hscan hbreak] at hlen ⊢
        push_neg at hbreak
        obtain ⟨-, hlt⟩ := hbreak
        obtain ⟨j, rfl⟩ : ∃ j, i = j + 1 := ⟨i - 1, by omega⟩
        simp only [List.take_succ_cons, List.map_cons, List.sum_cons]
        rcases Nat.eq_zero_or_pos j with rfl | hj
        · simp only [List.take_zero, List.map_nil, List.sum_nil, add_zero]
          linarith
        · simp only [List.length_cons] at hlen
          have hrec := ih (to_push - mig.load) (pushed + mig.load)
            ⟨mark_migrated st.tasks_by_load push_dom mig.load,
             reinsertPulls (scanPulls (st.tasks_by_load.getD push_dom [])
               skip_kworkers to_push (st.doms_to_pull.reverse)).1⟩
            j hj (by omega)
          linarith

/-- C2 (amended): for every push domain `P` processed by `load_balance`,
every migration out of `P` other than the first begins only while the
load already pushed is strictly below `push_max = dom_loads[P] * 0.50`;
the cap is a stopping condition checked after each transfer, so the
final total may overshoot it by up to the last migration's load (and a
lone first migration is not bounded by it at all). -/
theorem load_balance_outflow_prefix (fuel : Nat) (dom_loads : List ℚ)
    (skip_kworkers : Bool) (doms_to_push : List (ℚ × Nat)) (st : LBSt) :
    ∀ pd ms, (pd, ms) ∈ (load_balance fuel dom_loads skip_kworkers
      doms_to_push st).2 →
    ∀ i, 0 < i → i < ms.length →
      ((ms.take i).map Mig.load).sum < dom_loads.getD pd 0 * (1 / 2) := by
  unfold load_balance
  generalize doms_to_push.reverse = pushes
  induction pushes generalizing st with
  | nil =>
    intro pd ms hmem
    exact absurd hmem (List.not_mem_nil _)
  | cons p rest ih =>
    obtain ⟨to_push, push_dom⟩ := p
    intro pd ms hmem i h0 hlen
    unfold outerLoop at hmem
    simp only [List.mem_cons] at hmem
    rcases hmem with heq | hmem
    · injection heq with h1 h2
      subst h1
      subst h2
      have := innerLoop_prefix skip_kworkers pd
        (dom_loads.getD pd 0 * (1 / 2)) fuel to_push 0 st i h0 hlen
      linarith
    · exact ih _ pd ms hmem i h0 hlen

/-- The task and balancer state of the C2 counterexample: one push
domain with load 2 (cap 1), one pull domain, a single eligible task of
load 3/2. -/
def t7W : TaskInfo := ⟨7, 2, false, false⟩

def lbStW : LBSt := ⟨[[(3 / 2, t7W)], []], [(1, 1)]⟩

/-- C2, counterexample to the claim as stated: with `dom_loads = [2, 0]`
the outflow cap of push domain 0 is `2 * 0.50 = 1`, yet the single
selected migration carries load `3/2 > 1` — the cap only stops the loop
after the fact, it does not bound the total transferred. -/
theorem load_balance_outflow_exceeds_cap :
    (load_balance 5 [2, 0] false [(1, 0)] lbStW).2 =
      [(0, [⟨t7W, 1, 3 / 2⟩])] ∧
    ∀ ms, ((0 : Nat), ms) ∈ (load_balance 5 [2, 0] false [(1, 0)] lbStW).2 →
      ¬((ms.map Mig.load).sum ≤ ([2, 0] : List ℚ).getD 0 0 * (1 / 2)) := by
  have h1 : (load_balance 5 [2, 0] false [(1, 0)] lbStW).2 =
      [(0, [⟨t7W, 1, 3 / 2⟩])] := by
    norm_num [load_balance, outerLoop, innerLoop, scanPulls, pick_victim,
      find_first_candidate, reinsertPulls, mark_migrated, btreeInsert,
      lbStW, t7W, abs_of_nonneg, abs_of_nonpos]
  refine ⟨h1, ?_⟩
  intro ms hms
  rw [h1] at hms
  rw [List.mem_singleton] at hms
  injection hms with h2 h3
  subst h3
  norm_num

/-- The two-task run used by the C2 witness: push domain 0 at load 10
(cap 5) pushes loads 2 then 1 to pull domain 1. -/
def tAW : TaskInfo := ⟨10, 3, false, false⟩

def tBW : TaskInfo := ⟨11, 3, false, false⟩

def lbStW2 : LBSt := ⟨[[(1, tAW), (2, tBW)], []], [(5, 1)]⟩

/-- Witness for C2's amended theorem: before the second migration of the
witness run, the pushed total (2) is below the cap (5). -/
theorem load_balance_outflow_prefix_witness :
    ((0 : Nat), [(⟨tBW, 1, 2⟩ : Mig), ⟨tAW, 1, 1⟩]) ∈
      (load_balance 5 [10, 0] false [(5, 0)] lbStW2).2 ∧
    (0 : Nat) < 1 ∧ 1 < [(⟨tBW, 1, 2⟩ : Mig), ⟨tAW, 1, 1⟩].length ∧
    ((([(⟨tBW, 1, 2⟩ : Mig), ⟨tAW, 1, 1⟩].take 1).map Mig.load).sum <
      ([10, 0] : List ℚ).getD 0 0 * (1 / 2)) := by
  have hrun : (load_balance 5 [10, 0] false [(5, 0)] lbStW2).2 =
      [(0, [⟨tBW, 1, 2⟩, ⟨tAW, 1, 1⟩])] := by
    norm_num [load_balance, outerLoop, innerLoop, scanPulls, pick_victim,
      find_first_candidate, reinsertPulls, mark_migrated, btreeInsert,
      lbStW2, tAW, tBW, abs_of_nonneg, abs_of_nonpos,
      show (3 : Nat) &&& 2 = 2 from rfl]
  have hmem : ((0 : Nat), [(⟨tBW, 1, 2⟩ : Mig), ⟨tAW, 1, 1⟩]) ∈
      (load_balance 5 [10, 0] false [(5, 0)] lbStW2).2 := by
    rw [hrun]
    exact List.mem_singleton.mpr rfl
  exact ⟨hmem, Nat.one_pos, by norm_num,
    load_balance_outflow_prefix 5 [10, 0] false [(5, 0)] lbStW2 0 _ hmem 1
      Nat.one_pos (by norm_num)⟩

/-- Witness for C7 on the single-migration run: the written migration
`pid 7 → domain 1` has the pull domain's bit set in its mask. -/
theorem load_balance_eligibility_witness :
    ((0 : Nat), [(⟨t7W, 1, 3 / 2⟩ : Mig)]) ∈
      (load_balance 5 [2, 0] false [(1, 0)] lbStW).2 ∧
    (⟨t7W, 1, 3 / 2⟩ : Mig) ∈ [(⟨t7W, 1, 3 / 2⟩ : Mig)] ∧
    ((⟨t7W, 1, 3 / 2⟩ : Mig).task.dom_mask &&&
        2 ^ (⟨t7W, 1, 3 / 2⟩ : Mig).pull_dom ≠ 0 ∧
      (false = true → (⟨t7W, 1, 3 / 2⟩ : Mig).task.is_kworker = false)) := by
  have hrun : (load_balance 5 [2, 0] false [(1, 0)] lbStW).2 =
      [(0, [⟨t7W, 1, 3 / 2⟩])] := by
    norm_num [load_balance, outerLoop, innerLoop, scanPulls, pick_victim,
      find_first_candidate, reinsertPulls, mark_migrated, btreeInsert,
      lbStW, t7W, abs_of_nonneg, abs_of_nonpos]
  have hmem : ((0 : Nat), [(⟨t7W, 1, 3 / 2⟩ : Mig)]) ∈
      (load_balance 5 [2, 0] false [(1, 0)] lbStW).2 := by
    rw [hrun]
    exact List.mem_singleton.mpr rfl
  exact ⟨hmem, List.mem_singleton.mpr rfl,
    load_balance_eligibility 5 [2, 0] false [(1, 0)] lbStW 0 _ hmem _
      (List.mem_singleton.mpr rfl)⟩

end Atropos
